import Mathlib

/-!
Verification development for the software rasterization backend of the
canvas repository (std_image.go and the backend support file).

Floating point values of the source are embedded as exact rational numbers;
8-bit color channels are embedded as natural numbers.  Functions keep the
names of the source functions they translate wherever Lean allows it.
-/

namespace Canvas

/-- RGBA color with 8-bit channels stored as natural numbers (Go color.RGBA). -/
structure Color where
  R : ℕ
  G : ℕ
  B : ℕ
  A : ℕ
  deriving DecidableEq, Repr

/-- Go math.Round: round to the nearest integer, half away from zero. -/
def goRound (q : ℚ) : ℤ :=
  if q < 0 then -Int.floor (-q + 1/2) else Int.floor (q + 1/2)

/-- Channel value produced by the RGBA method of color.RGBA (the 8-bit value
replicated into 16 bits, that is multiplied by 257), scaled into the unit
interval by the division by 65535 that the function mix performs. -/
def chanQ (v : ℕ) : ℚ := (v : ℚ) * 257 / 65535

/-- Source-over blend of the software compositor (function mix in std_image.go):
each RGB channel is interpolated toward the source by the source alpha, and the
alpha channel is max((a1-a2)*a1+a2, a2); every channel is rounded at the end. -/
def mix (src dest : Color) : Color :=
  let r1 := chanQ src.R
  let g1 := chanQ src.G
  let b1 := chanQ src.B
  let a1 := chanQ src.A
  let r2 := chanQ dest.R
  let g2 := chanQ dest.G
  let b2 := chanQ dest.B
  let a2 := chanQ dest.A
  let r := (r1 - r2) * a1 + r2
  let g := (g1 - g2) * a1 + g2
  let b := (b1 - b2) * a1 + b2
  let a := max ((a1 - a2) * a1 + a2) a2
  ⟨(goRound (r * 255)).toNat, (goRound (g * 255)).toNat,
   (goRound (b * 255)).toNat, (goRound (a * 255)).toNat⟩

/-- Modelled from the spec wording of claim C1: standard source-over alpha
compositing in straight (non-premultiplied) alpha. With channel values scaled
to the unit interval, the output alpha is a_s + a_d*(1-a_s) and every RGB
channel is (c_s*a_s + c_d*a_d*(1-a_s))/out_a, each rounded at the end. -/
def sourceOverStraight (src dest : Color) : Color :=
  let a1 := (src.A : ℚ) / 255
  let a2 := (dest.A : ℚ) / 255
  let ao := a1 + a2 * (1 - a1)
  let r := ((src.R : ℚ) / 255 * a1 + (dest.R : ℚ) / 255 * a2 * (1 - a1)) / ao
  let g := ((src.G : ℚ) / 255 * a1 + (dest.G : ℚ) / 255 * a2 * (1 - a1)) / ao
  let b := ((src.B : ℚ) / 255 * a1 + (dest.B : ℚ) / 255 * a2 * (1 - a1)) / ao
  ⟨(goRound (r * 255)).toNat, (goRound (g * 255)).toNat,
   (goRound (b * 255)).toNat, (goRound (ao * 255)).toNat⟩

/-- The blend that the code actually computes, written with the plain division
by 255 of each channel: RGB channels are interpolated toward the source by the
source alpha alone (the destination alpha is ignored in the RGB channels), and
the output alpha is max(a_s*a_s + a_d*(1-a_s), a_d). -/
def mixAmended (src dest : Color) : Color :=
  let r1 := (src.R : ℚ) / 255
  let g1 := (src.G : ℚ) / 255
  let b1 := (src.B : ℚ) / 255
  let a1 := (src.A : ℚ) / 255
  let r2 := (dest.R : ℚ) / 255
  let g2 := (dest.G : ℚ) / 255
  let b2 := (dest.B : ℚ) / 255
  let a2 := (dest.A : ℚ) / 255
  let r := (r1 - r2) * a1 + r2
  let g := (g1 - g2) * a1 + g2
  let b := (b1 - b2) * a1 + b2
  let a := max ((a1 - a2) * a1 + a2) a2
  ⟨(goRound (r * 255)).toNat, (goRound (g * 255)).toNat,
   (goRound (b * 255)).toNat, (goRound (a * 255)).toNat⟩

theorem chanQ_eq (v : ℕ) : chanQ v = (v : ℚ) / 255 := by
  unfold chanQ
  rw [div_eq_div_iff (by norm_num) (by norm_num)]
  ring

/-- Claim C1, counterexample: blending half-transparent red over a fully
transparent destination. The code produces (127,0,0,63) where standard
source-over compositing in straight alpha produces (255,0,0,127). -/
theorem mix_ne_sourceOver_cex :
    mix ⟨255, 0, 0, 127⟩ ⟨0, 0, 0, 0⟩ = ⟨127, 0, 0, 63⟩ ∧
    sourceOverStraight ⟨255, 0, 0, 127⟩ ⟨0, 0, 0, 0⟩ = ⟨255, 0, 0, 127⟩ ∧
    mix ⟨255, 0, 0, 127⟩ ⟨0, 0, 0, 0⟩ ≠ sourceOverStraight ⟨255, 0, 0, 127⟩ ⟨0, 0, 0, 0⟩ := by
  have h1 : mix ⟨255, 0, 0, 127⟩ ⟨0, 0, 0, 0⟩ = ⟨127, 0, 0, 63⟩ := by
    unfold mix chanQ goRound
    norm_num
    exact ⟨rfl, rfl⟩
  have h2 : sourceOverStraight ⟨255, 0, 0, 127⟩ ⟨0, 0, 0, 0⟩ = ⟨255, 0, 0, 127⟩ := by
    unfold sourceOverStraight goRound
    norm_num
    exact ⟨rfl, rfl⟩
  refine ⟨h1, h2, ?_⟩
  rw [h1, h2]
  simp

/-- Claim C1 (amended): the compositor blend interpolates each RGB channel
toward the source by the source alpha alone, ignoring the destination alpha in
the RGB channels, and outputs alpha max(a_s*a_s + a_d*(1-a_s), a_d), computed
on exact channel ratios and rounded to the nearest integer at the end. -/
theorem mix_eq_mixAmended (src dest : Color) : mix src dest = mixAmended src dest := by
  unfold mix mixAmended
  simp only [chanQ_eq]

theorem goRound_mono {q1 q2 : ℚ} (h : q1 ≤ q2) : goRound q1 ≤ goRound q2 := by
  unfold goRound
  rcases lt_or_le q1 0 with h1 | h1
  · rcases lt_or_le q2 0 with h2 | h2
    · rw [if_pos h1, if_pos h2]
      have : ⌊-q2 + 1/2⌋ ≤ ⌊-q1 + 1/2⌋ := Int.floor_le_floor (by linarith)
      omega
    · rw [if_pos h1, if_neg (not_lt.mpr h2)]
      have ha : (0 : ℤ) ≤ ⌊-q1 + 1/2⌋ := by
        apply Int.le_floor.mpr
        push_cast
        linarith
      have hb : (0 : ℤ) ≤ ⌊q2 + 1/2⌋ := by
        apply Int.le_floor.mpr
        push_cast
        linarith
      omega
  · rw [if_neg (not_lt.mpr h1), if_neg (not_lt.mpr (le_trans h1 h))]
    exact Int.floor_le_floor (by linarith)

theorem goRound_natCast (n : ℕ) : goRound (n : ℚ) = n := by
  unfold goRound
  rw [if_neg (not_lt.mpr (by positivity))]
  rw [Int.floor_eq_iff]
  constructor
  · push_cast
    linarith
  · push_cast
    linarith

/-- For every source and destination, the blend of the compositor does not
decrease the alpha channel: the code takes the max of the computed alpha with
the destination alpha, and rounding the exact destination ratio recovers the
destination alpha byte. -/
theorem mix_alpha_ge (src dest : Color) : dest.A ≤ (mix src dest).A := by
  unfold mix
  have harg : (chanQ dest.A) * 255 ≤
      max ((chanQ src.A - chanQ dest.A) * chanQ src.A + chanQ dest.A) (chanQ dest.A) * 255 := by
    have := le_max_right ((chanQ src.A - chanQ dest.A) * chanQ src.A + chanQ dest.A) (chanQ dest.A)
    nlinarith
  have hq : (chanQ dest.A) * 255 = (dest.A : ℚ) := by
    rw [chanQ_eq]
    field_simp
  have h1 : (dest.A : ℤ) ≤ goRound (max ((chanQ src.A - chanQ dest.A) * chanQ src.A + chanQ dest.A) (chanQ dest.A) * 255) := by
    calc (dest.A : ℤ) = goRound (dest.A : ℚ) := (goRound_natCast dest.A).symm
    _ ≤ _ := goRound_mono (by rw [← hq] at *; exact harg)
  simp only []
  omega

/-- Gradient stop, a position with a color (struct BackendGradientStop). -/
structure BackendGradientStop where
  Pos : ℚ
  Color : Color
  deriving DecidableEq, Repr

/-- Scan loop of BackendGradient.ColorAt: walk the stops in order, remembering
the index of the last stop already passed (beforeIdx) and stopping at the first
stop whose position exceeds pos (afterIdx); none stands for the value -1. -/
def scanStops (pos : ℚ) : List BackendGradientStop → ℕ → Option ℕ → Option ℕ × Option ℕ
  | [], _, before => (before, none)
  | s :: rest, i, before =>
    if s.Pos > pos then (before, some i)
    else scanStops pos rest (i + 1) (some i)

/-- Linear interpolation between the two bracketing stops, each channel rounded
to the nearest integer, as inlined at the end of BackendGradient.ColorAt. -/
def lerpStops (before after : BackendGradientStop) (pos : ℚ) : Color :=
  let p := (pos - before.Pos) / (after.Pos - before.Pos)
  ⟨(goRound (((after.Color.R : ℚ) - (before.Color.R : ℚ)) * p + (before.Color.R : ℚ))).toNat,
   (goRound (((after.Color.G : ℚ) - (before.Color.G : ℚ)) * p + (before.Color.G : ℚ))).toNat,
   (goRound (((after.Color.B : ℚ) - (before.Color.B : ℚ)) * p + (before.Color.B : ℚ))).toNat,
   (goRound (((after.Color.A : ℚ) - (before.Color.A : ℚ)) * p + (before.Color.A : ℚ))).toNat⟩

/-- BackendGradient.ColorAt: zero stops give the transparent color, one stop
gives that stop color for every position, otherwise the scan finds the two
bracketing stops, clamping to the first or last stop when one side is missing,
and linearly interpolates in between. -/
def ColorAt (g : List BackendGradientStop) (pos : ℚ) : Color :=
  match g with
  | [] => ⟨0, 0, 0, 0⟩
  | [s] => s.Color
  | s0 :: s1 :: rest =>
    match scanStops pos (s0 :: s1 :: rest) 0 none with
    | (none, _) => s0.Color
    | (some _, none) => ((s0 :: s1 :: rest).getLast (by simp)).Color
    | (some bi, some ai) =>
      lerpStops ((s0 :: s1 :: rest).getD bi ⟨0, ⟨0, 0, 0, 0⟩⟩)
        ((s0 :: s1 :: rest).getD ai ⟨0, ⟨0, 0, 0, 0⟩⟩) pos

theorem scanStops_all_le (pos : ℚ) :
    ∀ (g : List BackendGradientStop) (i : ℕ) (b : Option ℕ),
      (∀ s ∈ g, s.Pos ≤ pos) →
      scanStops pos g i b = (if g.length = 0 then b else some (i + g.length - 1), none)
  | [], i, b, _ => by simp [scanStops]
  | s :: rest, i, b, h => by
    have hs : ¬ s.Pos > pos := not_lt.mpr (h s (by simp))
    rw [scanStops, if_neg hs,
      scanStops_all_le pos rest (i + 1) (some i) (fun t ht => h t (by simp [ht]))]
    rcases rest with _ | ⟨t, rest⟩
    · simp
    · simp
      omega

theorem scanStops_bracket (pos : ℚ) :
    ∀ (g : List BackendGradientStop) (i : ℕ) (b : Option ℕ) (j : ℕ)
      (hj : j + 1 < g.length),
      (∀ k (hk : k ≤ j), (g.get ⟨k, by omega⟩).Pos ≤ pos) →
      pos < (g.get ⟨j + 1, hj⟩).Pos →
      scanStops pos g i b = (some (i + j), some (i + j + 1))
  | [], _, _, j, hj, _, _ => by simp at hj
  | s :: rest, i, b, 0, hj, hle, hgt => by
    have hs : ¬ s.Pos > pos := not_lt.mpr (hle 0 (le_refl 0))
    rcases rest with _ | ⟨t, rest⟩
    · simp at hj
    · have hgt2 : t.Pos > pos := by simpa using hgt
      rw [scanStops, if_neg hs, scanStops, if_pos hgt2]
      simp
  | s :: rest, i, b, j + 1, hj, hle, hgt => by
    have hs : ¬ s.Pos > pos := not_lt.mpr (hle 0 (by omega))
    have hj2 : j + 1 < rest.length := by simpa using hj
    rw [scanStops, if_neg hs,
      scanStops_bracket pos rest (i + 1) (some i) j hj2
        (fun k hk => by
          have := hle (k + 1) (by omega)
          simpa using this)
        (by simpa using hgt)]
    have h1 : i + 1 + j = i + (j + 1) := by omega
    rw [h1]

/-- Sortedness of the stops: positions are monotone non-decreasing, the
precondition the spec places on gradients. -/
def StopsSorted (g : List BackendGradientStop) : Prop :=
  List.Pairwise (fun s t => s.Pos ≤ t.Pos) g

theorem sorted_le_getLast {g : List BackendGradientStop} (hs : StopsSorted g)
    (hne : g ≠ []) : ∀ s ∈ g, s.Pos ≤ (g.getLast hne).Pos := by
  intro s hmem
  obtain ⟨k, hk⟩ := List.mem_iff_get.mp hmem
  rw [List.getLast_eq_get]
  rcases lt_or_le (k : ℕ) (g.length - 1) with h | h
  · have := List.pairwise_iff_get.mp hs k ⟨g.length - 1, by omega⟩ h
    rw [hk] at this
    exact this
  · have hkeq : (k : ℕ) = g.length - 1 := by
      have := k.isLt
      omega
    rw [← hk]
    have : k = (⟨g.length - 1, by have := k.isLt; omega⟩ : Fin g.length) := by
      apply Fin.ext
      exact hkeq
    rw [this]

theorem lerpStops_at_before (b a : BackendGradientStop) :
    lerpStops b a b.Pos = b.Color := by
  unfold lerpStops
  simp only [sub_self, zero_div, mul_zero, zero_add, mul_comm]
  simp only [zero_mul, add_zero, goRound_natCast, Int.toNat_natCast]

theorem ColorAt_clamp_lo {g : List BackendGradientStop} {pos : ℚ}
    (h2 : 2 ≤ g.length) (hlt : pos < (g.get ⟨0, by omega⟩).Pos) :
    ColorAt g pos = (g.get ⟨0, by omega⟩).Color := by
  rcases g with _ | ⟨s0, _ | ⟨s1, rest⟩⟩
  · simp at h2
  · simp at h2
  · have hscan : scanStops pos (s0 :: s1 :: rest) 0 none = (none, some 0) := by
      rw [scanStops, if_pos (by simpa using hlt)]
    simp [ColorAt, hscan]

theorem ColorAt_clamp_hi {g : List BackendGradientStop} {pos : ℚ}
    (hs : StopsSorted g) (hne : g ≠ []) (h2 : 2 ≤ g.length)
    (hge : (g.getLast hne).Pos ≤ pos) :
    ColorAt g pos = (g.getLast hne).Color := by
  have hall : ∀ s ∈ g, s.Pos ≤ pos := fun s hmem =>
    le_trans (sorted_le_getLast hs hne s hmem) hge
  rcases g with _ | ⟨s0, _ | ⟨s1, rest⟩⟩
  · simp at h2
  · simp at h2
  · have hscan := scanStops_all_le pos (s0 :: s1 :: rest) 0 none hall
    simp only [List.length_cons, Nat.succ_ne_zero, if_neg] at hscan
    simp [ColorAt, hscan]

theorem ColorAt_bracket {g : List BackendGradientStop} {pos : ℚ} {j : ℕ}
    (hs : StopsSorted g) (hj : j + 1 < g.length)
    (hle : (g.get ⟨j, by omega⟩).Pos ≤ pos)
    (hgt : pos < (g.get ⟨j + 1, hj⟩).Pos) :
    ColorAt g pos = lerpStops (g.get ⟨j, by omega⟩) (g.get ⟨j + 1, hj⟩) pos := by
  have hpre : ∀ k (hk : k ≤ j), (g.get ⟨k, by omega⟩).Pos ≤ pos := by
    intro k hk
    rcases eq_or_lt_of_le hk with h | h
    · subst h
      exact hle
    · refine le_trans ?_ hle
      exact List.pairwise_iff_get.mp hs ⟨k, by omega⟩ ⟨j, by omega⟩ h
  rcases g with _ | ⟨s0, _ | ⟨s1, rest⟩⟩
  · simp at hj
  · rcases j with _ | j
    · simp at hj
    · simp at hj
  · have hscan := scanStops_bracket pos (s0 :: s1 :: rest) 0 none j hj hpre hgt
    simp only [Nat.zero_add] at hscan
    simp only [ColorAt, hscan]
    rw [List.getD_eq_get _ _ (by omega), List.getD_eq_get _ _ hj]

/-- Claim C3 (amended): BackendGradient.ColorAt returns the transparent color
for zero stops and the stop color for one stop; for two or more sorted stops it
clamps below the first stop to the first stop color, clamps at or above the
last stop to the last stop color, and linearly interpolates between the two
bracketing stops in between.  When the stops span the unit interval, ColorAt at
position one is the last stop color, and ColorAt at position zero is the first
stop color provided the second stop position is strictly positive; with a
duplicated first position the code returns the last stop at position zero
instead, which is the one amendment to the claim. -/
theorem ColorAt_spec (g : List BackendGradientStop) (pos : ℚ) (hs : StopsSorted g) :
    (ColorAt [] pos = ⟨0, 0, 0, 0⟩)
    ∧ (∀ s, ColorAt [s] pos = s.Color)
    ∧ (∀ h2 : 2 ≤ g.length, pos < (g.get ⟨0, by omega⟩).Pos →
        ColorAt g pos = (g.get ⟨0, by omega⟩).Color)
    ∧ (∀ (hne : g ≠ []) (h2 : 2 ≤ g.length), (g.getLast hne).Pos ≤ pos →
        ColorAt g pos = (g.getLast hne).Color)
    ∧ (∀ (j : ℕ) (hj : j + 1 < g.length), (g.get ⟨j, by omega⟩).Pos ≤ pos →
        pos < (g.get ⟨j + 1, hj⟩).Pos →
        ColorAt g pos = lerpStops (g.get ⟨j, by omega⟩) (g.get ⟨j + 1, hj⟩) pos)
    ∧ (∀ h2 : 2 ≤ g.length, (g.get ⟨0, by omega⟩).Pos = 0 →
        0 < (g.get ⟨1, by omega⟩).Pos →
        ColorAt g 0 = (g.get ⟨0, by omega⟩).Color)
    ∧ (∀ (hne : g ≠ []) (h2 : 2 ≤ g.length), (g.getLast hne).Pos = 1 →
        ColorAt g 1 = (g.getLast hne).Color) := by
  refine ⟨rfl, fun s => rfl, ?_, ?_, ?_, ?_, ?_⟩
  · intro h2 hlt
    exact ColorAt_clamp_lo h2 hlt
  · intro hne h2 hge
    exact ColorAt_clamp_hi hs hne h2 hge
  · intro j hj hle hgt
    exact ColorAt_bracket hs hj hle hgt
  · intro h2 h0 h1
    have hb := @ColorAt_bracket g 0 0 hs (by omega) (by rw [h0]) h1
    rw [hb, ← h0, lerpStops_at_before]
  · intro hne h2 hlast
    exact ColorAt_clamp_hi hs hne h2 (le_of_eq hlast)

/-- Two stops, black at zero and white at one, used as a concrete gradient. -/
def gradStopsBW : List BackendGradientStop :=
  [⟨0, ⟨0, 0, 0, 255⟩⟩, ⟨1, ⟨255, 255, 255, 255⟩⟩]

/-- Claim C3, witness: at position one half the black-to-white gradient
evaluates to the rounded middle gray. -/
theorem ColorAt_spec_witness :
    StopsSorted gradStopsBW ∧ ColorAt gradStopsBW (1/2) = ⟨128, 128, 128, 255⟩ := by
  have hs : StopsSorted gradStopsBW := by
    simp [StopsSorted, gradStopsBW, List.pairwise_cons]
  refine ⟨hs, ?_⟩
  have h := (ColorAt_spec gradStopsBW (1/2) hs).2.2.2.2.1 0 (by simp [gradStopsBW])
    (by norm_num [gradStopsBW]) (by norm_num [gradStopsBW])
  rw [h]
  unfold lerpStops goRound
  simp [gradStopsBW]
  norm_num
  exact ⟨rfl, rfl⟩

/-- Sorted gradient with a duplicated stop position at zero. -/
def gradStopsDup : List BackendGradientStop :=
  [⟨0, ⟨255, 0, 0, 255⟩⟩, ⟨0, ⟨0, 0, 255, 255⟩⟩, ⟨1, ⟨255, 255, 255, 255⟩⟩]

/-- Claim C3, counterexample: for a sorted gradient whose stops span the unit
interval but whose first two stops share position zero, ColorAt at position
zero returns the second stop color, not the first stop color as claimed. -/
theorem ColorAt_dup_cex :
    StopsSorted gradStopsDup ∧
    (gradStopsDup.get ⟨0, by simp [gradStopsDup]⟩).Pos = 0 ∧
    (gradStopsDup.getLast (by simp [gradStopsDup])).Pos = 1 ∧
    ColorAt gradStopsDup 0 = ⟨0, 0, 255, 255⟩ ∧
    (⟨0, 0, 255, 255⟩ : Color) ≠ (gradStopsDup.get ⟨0, by simp [gradStopsDup]⟩).Color := by
  have hs : StopsSorted gradStopsDup := by
    simp [StopsSorted, gradStopsDup, List.pairwise_cons]
  have hb := @ColorAt_bracket gradStopsDup 0 1 hs
    (by simp [gradStopsDup]) (by norm_num [gradStopsDup]) (by norm_num [gradStopsDup])
  refine ⟨hs, by simp [gradStopsDup], by simp [gradStopsDup], ?_, by simp [gradStopsDup]⟩
  rw [hb]
  have : (gradStopsDup.get ⟨1, by simp [gradStopsDup]⟩).Pos = 0 := by simp [gradStopsDup]
  rw [← this, lerpStops_at_before]
  simp [gradStopsDup]

/-- A triangle given by its three vertices, each an x,y pair of rationals
standing for the three BackendVec entries passed to triangleLR. -/
structure Tri where
  p0 : ℚ × ℚ
  p1 : ℚ × ℚ
  p2 : ℚ × ℚ
  deriving DecidableEq, Repr

/-- The conditional swaps at the top of triangleLR that sort the vertices by
ascending y. -/
def sortTri (t : Tri) : Tri :=
  let a0 := t.p0
  let b0 := t.p1
  let c0 := t.p2
  let ab := if a0.2 > b0.2 then (b0, a0) else (a0, b0)
  let a1 := ab.1
  let b1 := ab.2
  if b1.2 > c0.2 then
    if a1.2 > c0.2 then ⟨c0, a1, b1⟩ else ⟨a1, c0, b1⟩
  else ⟨a1, b1, c0⟩

/-- Body of triangleLR on the already sorted vertices: left and right x bounds
of the triangle at height y, with the outside flag, interpolating the active
edges and swapping so that the left bound never exceeds the right bound. -/
def triangleLRsorted (a b c : ℚ × ℚ) (y : ℚ) : ℚ × ℚ × Bool :=
  if y ≤ a.2 then (a.1, a.1, true)
  else if y > c.2 then (c.1, c.1, true)
  else
    let l :=
      if a.2 ≤ y ∧ y ≤ b.2 ∧ a.2 < b.2 then
        (b.1 - a.1) * ((y - a.2) / (b.2 - a.2)) + a.1
      else
        (c.1 - b.1) * ((y - b.2) / (c.2 - b.2)) + b.1
    let r := (c.1 - a.1) * ((y - a.2) / (c.2 - a.2)) + a.1
    if l > r then (r, l, false) else (l, r, false)

/-- Function triangleLR of std_image.go: sort the vertices by y and compute
the left and right scanline bounds at height y. -/
def triangleLR (t : Tri) (y : ℚ) : ℚ × ℚ × Bool :=
  let s := sortTri t
  triangleLRsorted s.p0 s.p1 s.p2 y

theorem sortTri_sorted (t : Tri) :
    (sortTri t).p0.2 ≤ (sortTri t).p1.2 ∧ (sortTri t).p1.2 ≤ (sortTri t).p2.2 := by
  unfold sortTri
  rcases t with ⟨a, b, c⟩
  simp only []
  split_ifs <;> simp_all <;>
    first
      | (constructor <;> linarith)
      | linarith

/-- Membership in the closed triangle spanned by three vertices, expressed as
a convex combination with nonnegative coefficients summing to one. -/
def inTri (a b c : ℚ × ℚ) (P : ℚ × ℚ) : Prop :=
  ∃ q1 q2 q3 : ℚ, 0 ≤ q1 ∧ 0 ≤ q2 ∧ 0 ≤ q3 ∧ q1 + q2 + q3 = 1 ∧
    P.1 = q1 * a.1 + q2 * b.1 + q3 * c.1 ∧ P.2 = q1 * a.2 + q2 * b.2 + q3 * c.2

theorem inTri_convex {a b c P Q : ℚ × ℚ} {t : ℚ} (hP : inTri a b c P)
    (hQ : inTri a b c Q) (h0 : 0 ≤ t) (h1 : t ≤ 1) :
    inTri a b c ((1 - t) * P.1 + t * Q.1, (1 - t) * P.2 + t * Q.2) := by
  obtain ⟨p1, p2, p3, hp1, hp2, hp3, hps, hpx, hpy⟩ := hP
  obtain ⟨r1, r2, r3, hr1, hr2, hr3, hrs, hrx, hry⟩ := hQ
  refine ⟨(1 - t) * p1 + t * r1, (1 - t) * p2 + t * r2, (1 - t) * p3 + t * r3,
    ?_, ?_, ?_, ?_, ?_, ?_⟩
  · have h1a := mul_nonneg (by linarith : (0:ℚ) ≤ 1 - t) hp1
    have h1b := mul_nonneg h0 hr1
    linarith
  · have h2a := mul_nonneg (by linarith : (0:ℚ) ≤ 1 - t) hp2
    have h2b := mul_nonneg h0 hr2
    linarith
  · have h3a := mul_nonneg (by linarith : (0:ℚ) ≤ 1 - t) hp3
    have h3b := mul_nonneg h0 hr3
    linarith
  · nlinarith [hps, hrs]
  · simp only []
    rw [hpx, hrx]
    ring
  · simp only []
    rw [hpy, hry]
    ring

theorem inTri_segment {a b c : ℚ × ℚ} {X1 X2 X Y : ℚ} (h1 : inTri a b c (X1, Y))
    (h2 : inTri a b c (X2, Y)) (hle1 : X1 ≤ X) (hle2 : X ≤ X2) :
    inTri a b c (X, Y) := by
  rcases eq_or_lt_of_le (le_trans hle1 hle2) with heq | hlt
  · have hx1 : X = X1 := le_antisymm (by rw [heq]; exact hle2) hle1
    rw [hx1]
    exact h1
  · have ht0 : 0 ≤ (X - X1) / (X2 - X1) := by
      apply div_nonneg <;> linarith
    have ht1 : (X - X1) / (X2 - X1) ≤ 1 := by
      rw [div_le_one (by linarith)]
      linarith
    have h := inTri_convex h1 h2 ht0 ht1
    simp only [] at h
    have hne : X2 - X1 ≠ 0 := ne_of_gt (by linarith)
    have hx : (1 - (X - X1) / (X2 - X1)) * X1 + (X - X1) / (X2 - X1) * X2 = X := by
      field_simp
      ring
    have hy : (1 - (X - X1) / (X2 - X1)) * Y + (X - X1) / (X2 - X1) * Y = Y := by
      ring
    rw [hx, hy] at h
    exact h

theorem edge_inTri_ab {a b c : ℚ × ℚ} {y : ℚ} (hy1 : a.2 < y) (hyb : y ≤ b.2)
    (hD : a.2 < b.2) :
    inTri a b c ((b.1 - a.1) * ((y - a.2) / (b.2 - a.2)) + a.1, y) := by
  have hDne : b.2 - a.2 ≠ 0 := ne_of_gt (by linarith)
  refine ⟨1 - (y - a.2) / (b.2 - a.2), (y - a.2) / (b.2 - a.2), 0, ?_, ?_, le_refl 0, by ring, ?_, ?_⟩
  · have : (y - a.2) / (b.2 - a.2) ≤ 1 := by
      rw [div_le_one (by linarith)]
      linarith
    linarith
  · apply div_nonneg <;> linarith
  · simp only []
    field_simp
    ring
  · simp only []
    field_simp
    ring

theorem edge_inTri_ac {a b c : ℚ × ℚ} {y : ℚ} (hy1 : a.2 < y) (hy2 : y ≤ c.2) :
    inTri a b c ((c.1 - a.1) * ((y - a.2) / (c.2 - a.2)) + a.1, y) := by
  have hD : a.2 < c.2 := lt_of_lt_of_le hy1 hy2
  have hDne : c.2 - a.2 ≠ 0 := ne_of_gt (by linarith)
  refine ⟨1 - (y - a.2) / (c.2 - a.2), 0, (y - a.2) / (c.2 - a.2), ?_, le_refl 0, ?_, by ring, ?_, ?_⟩
  · have : (y - a.2) / (c.2 - a.2) ≤ 1 := by
      rw [div_le_one (by linarith)]
      linarith
    linarith
  · apply div_nonneg <;> linarith
  · simp only []
    field_simp
    ring
  · simp only []
    field_simp
    ring

theorem edge_inTri_bc {a b c : ℚ × ℚ} {y : ℚ} (hyb : b.2 < y) (hy2 : y ≤ c.2) :
    inTri a b c ((c.1 - b.1) * ((y - b.2) / (c.2 - b.2)) + b.1, y) := by
  have hD : b.2 < c.2 := lt_of_lt_of_le hyb hy2
  have hDne : c.2 - b.2 ≠ 0 := ne_of_gt (by linarith)
  refine ⟨0, 1 - (y - b.2) / (c.2 - b.2), (y - b.2) / (c.2 - b.2), le_refl 0, ?_, ?_, by ring, ?_, ?_⟩
  · have : (y - b.2) / (c.2 - b.2) ≤ 1 := by
      rw [div_le_one (by linarith)]
      linarith
    linarith
  · apply div_nonneg <;> linarith
  · simp only []
    field_simp
    ring
  · simp only []
    field_simp
    ring

theorem branch2_gt {a b : ℚ × ℚ} {y : ℚ} (hab : a.2 ≤ b.2) (hy1 : a.2 < y)
    (hnc : ¬(a.2 ≤ y ∧ y ≤ b.2 ∧ a.2 < b.2)) : b.2 < y := by
  push_neg at hnc
  rcases lt_or_le b.2 y with h | h
  · exact h
  · have h2 := hnc (le_of_lt hy1) h
    have : a.2 = b.2 := le_antisymm hab h2
    linarith

/-- Both bounds that triangleLRsorted returns at an interior scanline are
points of the closed triangle. -/
theorem triangleLRsorted_ends_inTri {a b c : ℚ × ℚ} {y : ℚ}
    (hab : a.2 ≤ b.2) (hbc : b.2 ≤ c.2) (hy1 : a.2 < y) (hy2 : y ≤ c.2) :
    inTri a b c ((triangleLRsorted a b c y).1, y) ∧
    inTri a b c ((triangleLRsorted a b c y).2.1, y) := by
  unfold triangleLRsorted
  rw [if_neg (not_le.mpr hy1), if_neg (not_lt.mpr hy2)]
  simp only []
  split_ifs with hcond hswap hswap
  · exact ⟨edge_inTri_ac hy1 hy2, edge_inTri_ab hy1 hcond.2.1 hcond.2.2⟩
  · exact ⟨edge_inTri_ab hy1 hcond.2.1 hcond.2.2, edge_inTri_ac hy1 hy2⟩
  · exact ⟨edge_inTri_ac hy1 hy2, edge_inTri_bc (branch2_gt hab hy1 hcond) hy2⟩
  · exact ⟨edge_inTri_bc (branch2_gt hab hy1 hcond) hy2, edge_inTri_ac hy1 hy2⟩

theorem mul_sign_helper {pX qX D1 D2 q2 q3 K : ℚ}
    (hp : pX * D1 = q3 * K) (hq : qX * D2 = -(q2 * K))
    (hD1 : 0 < D1) (hD2 : 0 < D2) (hq2 : 0 ≤ q2) (hq3 : 0 ≤ q3) :
    pX * qX ≤ 0 := by
  rcases le_or_lt pX 0 with h | h
  · rcases le_or_lt qX 0 with h2 | h2
    · rcases eq_or_lt_of_le h with he | hlt
      · rw [he]
        simp
      · rcases eq_or_lt_of_le h2 with he2 | hlt2
        · rw [he2]
          simp
        · exfalso
          have hK1 : q3 * K < 0 := by
            rw [← hp]
            exact mul_neg_of_neg_of_pos hlt hD1
          have hKneg : K < 0 := by
            by_contra hc
            push_neg at hc
            exact absurd (mul_nonneg hq3 hc) (not_le.mpr hK1)
          have hK2 : 0 < q2 * K := by
            have := mul_neg_of_neg_of_pos hlt2 hD2
            rw [hq] at this
            linarith
          have : q2 * K ≤ 0 := mul_nonpos_of_nonneg_of_nonpos hq2 (le_of_lt hKneg)
          linarith
    · exact mul_nonpos_of_nonpos_of_nonneg h (le_of_lt h2)
  · rcases le_or_lt qX 0 with h2 | h2
    · exact mul_nonpos_of_nonneg_of_nonpos (le_of_lt h) h2
    · exfalso
      have hK1 : 0 < q3 * K := by
        rw [← hp]
        exact mul_pos h hD1
      have hKpos : 0 < K := by
        by_contra hc
        push_neg at hc
        exact absurd (mul_nonpos_of_nonneg_of_nonpos hq3 hc) (not_le.mpr hK1)
      have hK2 : q2 * K < 0 := by
        have := mul_pos h2 hD2
        rw [hq] at this
        linarith
      have : 0 ≤ q2 * K := mul_nonneg hq2 (le_of_lt hKpos)
      linarith

theorem between_of_mul_nonpos {p q X : ℚ} (h : (p - X) * (q - X) ≤ 0) :
    min p q ≤ X ∧ X ≤ max p q := by
  rcases mul_nonpos_iff.mp h with ⟨h1, h2⟩ | ⟨h1, h2⟩
  · constructor
    · exact le_trans (min_le_right p q) (by linarith)
    · exact le_trans (by linarith) (le_max_left p q)
  · constructor
    · exact le_trans (min_le_left p q) (by linarith)
    · exact le_trans (by linarith) (le_max_right p q)

theorem cross_branch1 {a b c : ℚ × ℚ} {y X q2 q3 : ℚ}
    (hq2 : 0 ≤ q2) (hq3 : 0 ≤ q3)
    (hx : X = (1 - q2 - q3) * a.1 + q2 * b.1 + q3 * c.1)
    (hy : y = (1 - q2 - q3) * a.2 + q2 * b.2 + q3 * c.2)
    (hD1 : a.2 < b.2) (hD2 : a.2 < c.2) :
    ((b.1 - a.1) * ((y - a.2) / (b.2 - a.2)) + a.1 - X) *
      ((c.1 - a.1) * ((y - a.2) / (c.2 - a.2)) + a.1 - X) ≤ 0 := by
  have hD1ne : b.2 - a.2 ≠ 0 := ne_of_gt (by linarith)
  have hD2ne : c.2 - a.2 ≠ 0 := ne_of_gt (by linarith)
  have hd1 : (y - a.2) / (b.2 - a.2) * (b.2 - a.2) = y - a.2 := div_mul_cancel₀ _ hD1ne
  have hd2 : (y - a.2) / (c.2 - a.2) * (c.2 - a.2) = y - a.2 := div_mul_cancel₀ _ hD2ne
  have hp : ((b.1 - a.1) * ((y - a.2) / (b.2 - a.2)) + a.1 - X) * (b.2 - a.2) =
      q3 * ((b.1 - a.1) * (c.2 - a.2) - (c.1 - a.1) * (b.2 - a.2)) := by
    linear_combination (b.1 - a.1) * hd1 - (b.2 - a.2) * hx + (b.1 - a.1) * hy
  have hq : ((c.1 - a.1) * ((y - a.2) / (c.2 - a.2)) + a.1 - X) * (c.2 - a.2) =
      -(q2 * ((b.1 - a.1) * (c.2 - a.2) - (c.1 - a.1) * (b.2 - a.2))) := by
    linear_combination (c.1 - a.1) * hd2 - (c.2 - a.2) * hx + (c.1 - a.1) * hy
  exact mul_sign_helper hp hq (by linarith) (by linarith) hq2 hq3

theorem cross_branch2 {a b c : ℚ × ℚ} {y X q1 q2 : ℚ}
    (hq1 : 0 ≤ q1) (hq2 : 0 ≤ q2)
    (hx : X = q1 * a.1 + q2 * b.1 + (1 - q1 - q2) * c.1)
    (hy : y = q1 * a.2 + q2 * b.2 + (1 - q1 - q2) * c.2)
    (hD3 : b.2 < c.2) (hD2 : a.2 < c.2) :
    ((c.1 - b.1) * ((y - b.2) / (c.2 - b.2)) + b.1 - X) *
      ((c.1 - a.1) * ((y - a.2) / (c.2 - a.2)) + a.1 - X) ≤ 0 := by
  have hD3ne : c.2 - b.2 ≠ 0 := ne_of_gt (by linarith)
  have hD2ne : c.2 - a.2 ≠ 0 := ne_of_gt (by linarith)
  have hd3 : (y - b.2) / (c.2 - b.2) * (c.2 - b.2) = y - b.2 := div_mul_cancel₀ _ hD3ne
  have hd2 : (y - a.2) / (c.2 - a.2) * (c.2 - a.2) = y - a.2 := div_mul_cancel₀ _ hD2ne
  have hp : ((c.1 - b.1) * ((y - b.2) / (c.2 - b.2)) + b.1 - X) * (c.2 - b.2) =
      q1 * ((b.1 - c.1) * (c.2 - a.2) - (a.1 - c.1) * (c.2 - b.2)) := by
    linear_combination (c.1 - b.1) * hd3 - (c.2 - b.2) * hx + (c.1 - b.1) * hy
  have hq : ((c.1 - a.1) * ((y - a.2) / (c.2 - a.2)) + a.1 - X) * (c.2 - a.2) =
      -(q2 * ((b.1 - c.1) * (c.2 - a.2) - (a.1 - c.1) * (c.2 - b.2))) := by
    linear_combination (c.1 - a.1) * hd2 - (c.2 - a.2) * hx + (c.1 - a.1) * hy
  exact mul_sign_helper hp hq (by linarith) (by linarith) hq2 hq1

/-- Every point of the closed triangle on an interior scanline lies between
the two bounds that triangleLRsorted returns. -/
theorem triangleLRsorted_cross {a b c : ℚ × ℚ} {y X : ℚ}
    (hab : a.2 ≤ b.2) (hbc : b.2 ≤ c.2) (hy1 : a.2 < y) (hy2 : y ≤ c.2)
    (hX : inTri a b c (X, y)) :
    (triangleLRsorted a b c y).1 ≤ X ∧ X ≤ (triangleLRsorted a b c y).2.1 := by
  obtain ⟨q1, q2, q3, h1, h2, h3, hs, hx, hy⟩ := hX
  simp only [] at hx hy
  have hD2 : a.2 < c.2 := lt_of_lt_of_le hy1 hy2
  have hx1 : X = (1 - q2 - q3) * a.1 + q2 * b.1 + q3 * c.1 := by
    rw [hx]
    have : q1 = 1 - q2 - q3 := by linarith
    rw [this]
  have hy1e : y = (1 - q2 - q3) * a.2 + q2 * b.2 + q3 * c.2 := by
    rw [hy]
    have : q1 = 1 - q2 - q3 := by linarith
    rw [this]
  have hx2 : X = q1 * a.1 + q2 * b.1 + (1 - q1 - q2) * c.1 := by
    rw [hx]
    have : q3 = 1 - q1 - q2 := by linarith
    rw [this]
  have hy2e : y = q1 * a.2 + q2 * b.2 + (1 - q1 - q2) * c.2 := by
    rw [hy]
    have : q3 = 1 - q1 - q2 := by linarith
    rw [this]
  unfold triangleLRsorted
  rw [if_neg (not_le.mpr hy1), if_neg (not_lt.mpr hy2)]
  simp only []
  split_ifs with hcond hswap hswap
  · have hk := between_of_mul_nonpos (cross_branch1 h2 h3 hx1 hy1e hcond.2.2 hD2)
    rw [min_eq_right (le_of_lt hswap), max_eq_left (le_of_lt hswap)] at hk
    exact hk
  · have hk := between_of_mul_nonpos (cross_branch1 h2 h3 hx1 hy1e hcond.2.2 hD2)
    push_neg at hswap
    rw [min_eq_left hswap, max_eq_right hswap] at hk
    exact hk
  · have hyb := branch2_gt hab hy1 hcond
    have hk := between_of_mul_nonpos
      (cross_branch2 h1 h2 hx2 hy2e (lt_of_lt_of_le hyb hy2) hD2)
    rw [min_eq_right (le_of_lt hswap), max_eq_left (le_of_lt hswap)] at hk
    exact hk
  · have hyb := branch2_gt hab hy1 hcond
    have hk := between_of_mul_nonpos
      (cross_branch2 h1 h2 hx2 hy2e (lt_of_lt_of_le hyb hy2) hD2)
    push_neg at hswap
    rw [min_eq_left hswap, max_eq_right hswap] at hk
    exact hk

/-- State of one backend raster operation: framebuffer image, stencil mask,
clip mask, and an instrumentation counter recording how many compositor
blends each pixel has received during the operation. -/
structure RState where
  img : ℤ × ℤ → Color
  stencil : ℤ × ℤ → ℕ
  clip : ℤ × ℤ → ℕ
  blends : ℤ × ℤ → ℕ

/-- Pixel inside the w by h buffer. -/
def inBoundsP (w h : ℤ) (p : ℤ × ℤ) : Prop :=
  0 ≤ p.1 ∧ p.1 < w ∧ 0 ≤ p.2 ∧ p.2 < h

instance (w h : ℤ) (p : ℤ × ℤ) : Decidable (inBoundsP w h p) := by
  unfold inBoundsP
  infer_instance

/-- Go image.Alpha.AlphaAt: zero outside the buffer bounds. -/
def alphaAt (w h : ℤ) (m : ℤ × ℤ → ℕ) (p : ℤ × ℤ) : ℕ :=
  if inBoundsP w h p then m p else 0

/-- Go image.Alpha.SetAlpha: a no-op outside the buffer bounds. -/
def setAlpha (w h : ℤ) (m : ℤ × ℤ → ℕ) (p : ℤ × ℤ) (v : ℕ) : ℤ × ℤ → ℕ :=
  if inBoundsP w h p then (fun q => if q = p then v else m q) else m

/-- Go image.RGBA.RGBAAt: the zero color outside the buffer bounds. -/
def rgbaAt (w h : ℤ) (img : ℤ × ℤ → Color) (p : ℤ × ℤ) : Color :=
  if inBoundsP w h p then img p else ⟨0, 0, 0, 0⟩

/-- Go image.RGBA.SetRGBA: a no-op outside the buffer bounds. -/
def setRGBA (w h : ℤ) (img : ℤ × ℤ → Color) (p : ℤ × ℤ) (c : Color) : ℤ × ℤ → Color :=
  if inBoundsP w h p then (fun q => if q = p then c else img q) else img

/-- Per-pixel callback of fillTrianglesNoAA: skip when the clip alpha is zero
or the stencil bit is already set, otherwise set the stencil bit, evaluate the
paint function at the integer pixel coordinates, and blend it into the image
when its alpha is positive. -/
def paintPixelNoAA (w h : ℤ) (fn : ℚ → ℚ → Color) (st : RState) (x y : ℤ) : RState :=
  if alphaAt w h st.clip (x, y) = 0 then st
  else if 0 < alphaAt w h st.stencil (x, y) then st
  else
    let st1 : RState := ⟨st.img, setAlpha w h st.stencil (x, y) 255, st.clip, st.blends⟩
    let col := fn (x : ℚ) (y : ℚ)
    if 0 < col.A then
      ⟨setRGBA w h st1.img (x, y) (mix col (rgbaAt w h st1.img (x, y))), st1.stencil, st1.clip,
       fun q => if q = (x, y) then st1.blends q + 1 else st1.blends q⟩
    else st1

/-- Per-pixel callback used for directly painted pixels in fillTrianglesMSAA,
written out separately because the source defines it as a second closure with
an identical body. -/
def paintPixelMSAAdirect (w h : ℤ) (fn : ℚ → ℚ → Color) (st : RState) (x y : ℤ) : RState :=
  if alphaAt w h st.clip (x, y) = 0 then st
  else if 0 < alphaAt w h st.stencil (x, y) then st
  else
    let st1 : RState := ⟨st.img, setAlpha w h st.stencil (x, y) 255, st.clip, st.blends⟩
    let col := fn (x : ℚ) (y : ℚ)
    if 0 < col.A then
      ⟨setRGBA w h st1.img (x, y) (mix col (rgbaAt w h st1.img (x, y))), st1.stencil, st1.clip,
       fun q => if q = (x, y) then st1.blends q + 1 else st1.blends q⟩
    else st1

/-- Per-pixel callback of fillQuad: identical guards, with the paint function
evaluated at the pixel center and the quad parametric coordinates. -/
def paintPixelQuad (w h : ℤ) (fnq : ℚ → ℚ → ℚ → ℚ → Color) (st : RState)
    (x y : ℤ) (tx ty : ℚ) : RState :=
  if alphaAt w h st.clip (x, y) = 0 then st
  else if 0 < alphaAt w h st.stencil (x, y) then st
  else
    let st1 : RState := ⟨st.img, setAlpha w h st.stencil (x, y) 255, st.clip, st.blends⟩
    let col := fnq ((x : ℚ) + 1/2) ((y : ℚ) + 1/2) tx ty
    if 0 < col.A then
      ⟨setRGBA w h st1.img (x, y) (mix col (rgbaAt w h st1.img (x, y))), st1.stencil, st1.clip,
       fun q => if q = (x, y) then st1.blends q + 1 else st1.blends q⟩
    else st1

/-- One entry of the deferred MSAA combine loop, already grouped: the stencil
guard is checked and set for the pixel, the listed sub-sample colors are summed
and divided by the total sample count, and the result is blended. -/
def paintPixelCombine (w h : ℤ) (samples : ℕ) (st : RState) (p : ℤ × ℤ)
    (cols : List Color) : RState :=
  if p.1 < 0 ∨ alphaAt w h st.clip p = 0 ∨ 0 < alphaAt w h st.stencil p then st
  else
    let st1 : RState := ⟨st.img, setAlpha w h st.stencil p 255, st.clip, st.blends⟩
    let combined : Color := ⟨(cols.map Color.R).sum / samples, (cols.map Color.G).sum / samples,
      (cols.map Color.B).sum / samples, (cols.map Color.A).sum / samples⟩
    ⟨setRGBA w h st1.img p (mix combined (rgbaAt w h st1.img p)), st1.stencil, st1.clip,
     fun q => if q = p then st1.blends q + 1 else st1.blends q⟩

/-- One candidate pixel event of a fill or draw operation: a triangle fill
callback, a quad fill callback, or one deferred MSAA combine group. -/
inductive PaintEvent where
  | tri (x y : ℤ)
  | quad (x y : ℤ) (tx ty : ℚ)
  | combine (p : ℤ × ℤ) (cols : List Color)

def opStep (w h : ℤ) (fn : ℚ → ℚ → Color) (fnq : ℚ → ℚ → ℚ → ℚ → Color)
    (samples : ℕ) (st : RState) : PaintEvent → RState
  | PaintEvent.tri x y => paintPixelNoAA w h fn st x y
  | PaintEvent.quad x y tx ty => paintPixelQuad w h fnq st x y tx ty
  | PaintEvent.combine p cols => paintPixelCombine w h samples st p cols

/-- A whole fill or draw operation: the stencil is cleared first, the blend
instrumentation is reset, and then the candidate pixel events are processed in
order. -/
def runOp (w h : ℤ) (fn : ℚ → ℚ → Color) (fnq : ℚ → ℚ → ℚ → ℚ → Color)
    (samples : ℕ) (events : List PaintEvent) (st : RState) : RState :=
  events.foldl (opStep w h fn fnq samples) ⟨st.img, fun _ => 0, st.clip, fun _ => 0⟩

theorem inBounds_of_alphaAt_ne {w h : ℤ} {m : ℤ × ℤ → ℕ} {p : ℤ × ℤ}
    (hne : alphaAt w h m p ≠ 0) : inBoundsP w h p := by
  by_contra hc
  rw [alphaAt, if_neg hc] at hne
  exact hne rfl

theorem alphaAt_setAlpha_self {w h : ℤ} {m : ℤ × ℤ → ℕ} {p : ℤ × ℤ} {v : ℕ}
    (hin : inBoundsP w h p) : alphaAt w h (setAlpha w h m p v) p = v := by
  rw [alphaAt, if_pos hin, setAlpha, if_pos hin]
  simp

theorem alphaAt_setAlpha_ne {w h : ℤ} {m : ℤ × ℤ → ℕ} {p q : ℤ × ℤ} {v : ℕ}
    (hne : q ≠ p) : alphaAt w h (setAlpha w h m p v) q = alphaAt w h m q := by
  unfold alphaAt setAlpha
  split_ifs with h1 h2 <;> simp_all

/-- Invariant of the per-operation stencil guard: every pixel has been blended
at most once, and a blended pixel has its stencil bit set. -/
def opInv (w h : ℤ) (st : RState) : Prop :=
  ∀ p, st.blends p ≤ 1 ∧ (1 ≤ st.blends p → 0 < alphaAt w h st.stencil p)

theorem guarded_paint_inv {w h : ℤ} {st : RState} {p0 : ℤ × ℤ} {c : Color}
    (hclip : alphaAt w h st.clip p0 ≠ 0) (hsten : ¬ 0 < alphaAt w h st.stencil p0)
    (hinv : opInv w h st) :
    opInv w h ⟨setRGBA w h st.img p0 c, setAlpha w h st.stencil p0 255, st.clip,
      fun q => if q = p0 then st.blends q + 1 else st.blends q⟩ := by
  intro p
  have hin : inBoundsP w h p0 := inBounds_of_alphaAt_ne hclip
  by_cases hp : p = p0
  · subst hp
    have hz : st.blends p = 0 := by
      by_contra hb
      exact hsten ((hinv p).2 (by omega))
    refine ⟨?_, fun _ => ?_⟩
    · simp [hz]
    · rw [alphaAt_setAlpha_self hin]
      omega
  · constructor
    · simp only [if_neg hp]
      exact (hinv p).1
    · intro hb
      simp only [if_neg hp] at hb
      rw [alphaAt_setAlpha_ne hp]
      exact (hinv p).2 hb
  
theorem stencil_only_inv {w h : ℤ} {st : RState} {p0 : ℤ × ℤ}
    (hinv : opInv w h st) :
    opInv w h ⟨st.img, setAlpha w h st.stencil p0 255, st.clip, st.blends⟩ := by
  intro p
  refine ⟨(hinv p).1, fun hb => ?_⟩
  by_cases hp : p = p0
  · subst hp
    by_cases hin : inBoundsP w h p
    · rw [alphaAt_setAlpha_self hin]
      omega
    · have h0 := (hinv p).2 hb
      exact absurd (@inBounds_of_alphaAt_ne w h st.stencil p (by omega)) hin
  · rw [alphaAt_setAlpha_ne hp]
    exact (hinv p).2 hb

theorem paintPixelNoAA_inv {w h : ℤ} {fn : ℚ → ℚ → Color} {st : RState} {x y : ℤ}
    (hinv : opInv w h st) : opInv w h (paintPixelNoAA w h fn st x y) := by
  simp only [paintPixelNoAA]
  split_ifs with h1 h2 h3
  · exact hinv
  · exact hinv
  · exact guarded_paint_inv h1 h2 hinv
  · exact stencil_only_inv hinv

theorem paintPixelMSAAdirect_inv {w h : ℤ} {fn : ℚ → ℚ → Color} {st : RState} {x y : ℤ}
    (hinv : opInv w h st) : opInv w h (paintPixelMSAAdirect w h fn st x y) := by
  simp only [paintPixelMSAAdirect]
  split_ifs with h1 h2 h3
  · exact hinv
  · exact hinv
  · exact guarded_paint_inv h1 h2 hinv
  · exact stencil_only_inv hinv

theorem paintPixelQuad_inv {w h : ℤ} {fnq : ℚ → ℚ → ℚ → ℚ → Color} {st : RState}
    {x y : ℤ} {tx ty : ℚ} (hinv : opInv w h st) :
    opInv w h (paintPixelQuad w h fnq st x y tx ty) := by
  simp only [paintPixelQuad]
  split_ifs with h1 h2 h3
  · exact hinv
  · exact hinv
  · exact guarded_paint_inv h1 h2 hinv
  · exact stencil_only_inv hinv

theorem paintPixelCombine_inv {w h : ℤ} {samples : ℕ} {st : RState} {p : ℤ × ℤ}
    {cols : List Color} (hinv : opInv w h st) :
    opInv w h (paintPixelCombine w h samples st p cols) := by
  simp only [paintPixelCombine]
  split_ifs with h1
  · exact hinv
  · push_neg at h1
    exact guarded_paint_inv h1.2.1 (by omega) hinv

theorem opStep_inv {w h : ℤ} {fn : ℚ → ℚ → Color} {fnq : ℚ → ℚ → ℚ → ℚ → Color}
    {samples : ℕ} {st : RState} {ev : PaintEvent} (hinv : opInv w h st) :
    opInv w h (opStep w h fn fnq samples st ev) := by
  cases ev
  · exact paintPixelNoAA_inv hinv
  · exact paintPixelQuad_inv hinv
  · exact paintPixelCombine_inv hinv

theorem foldl_opStep_inv {w h : ℤ} {fn : ℚ → ℚ → Color} {fnq : ℚ → ℚ → ℚ → ℚ → Color}
    {samples : ℕ} :
    ∀ (events : List PaintEvent) (st : RState), opInv w h st →
      opInv w h (events.foldl (opStep w h fn fnq samples) st)
  | [], st, hinv => hinv
  | ev :: rest, st, hinv =>
    foldl_opStep_inv rest (opStep w h fn fnq samples st ev) (opStep_inv hinv)

/-- A model of Fill on the no-anti-aliasing path: the canOverlap flag is
accepted and, as in the source, never read. -/
def FillNoAAModel (w h : ℤ) (fn : ℚ → ℚ → Color) (events : List PaintEvent)
    (canOverlap : Bool) (st : RState) : RState :=
  runOp w h fn (fun _ _ _ _ => ⟨0, 0, 0, 0⟩) 1 events st

/-- Claim C2: in one fill or draw operation the stencil mask is cleared first,
every candidate pixel is guarded by a check-then-set of its stencil bit, and
therefore every pixel of the framebuffer is blended at most once, whatever
geometry produced the candidate pixel events and whatever the value of the
canOverlap flag, which the source accepts and never reads. -/
theorem stencil_guard_blends_once (w h : ℤ) (fn : ℚ → ℚ → Color)
    (fnq : ℚ → ℚ → ℚ → ℚ → Color) (samples : ℕ) (events : List PaintEvent)
    (st : RState) (p : ℤ × ℤ) :
    (runOp w h fn fnq samples events st).blends p ≤ 1 ∧
    (∀ (c1 c2 : Bool), FillNoAAModel w h fn events c1 st = FillNoAAModel w h fn events c2 st) := by
  constructor
  · have hinv0 : opInv w h (⟨st.img, fun _ => 0, st.clip, fun _ => 0⟩ : RState) := by
      intro q
      exact ⟨by simp, by simp⟩
    exact (foldl_opStep_inv events _ hinv0 p).1
  · intro c1 c2
    rfl

theorem setRGBA_mix_alpha {w h : ℤ} {img : ℤ × ℤ → Color} {p0 : ℤ × ℤ} {col : Color}
    (q : ℤ × ℤ) : (img q).A ≤ ((setRGBA w h img p0 (mix col (rgbaAt w h img p0))) q).A := by
  unfold setRGBA rgbaAt
  split_ifs with h1
  · by_cases hq : q = p0
    · subst hq
      simp only [if_pos rfl, if_pos h1]
      exact mix_alpha_ge col (img q)
    · simp only [if_neg hq]
      exact le_refl _
  · exact le_refl _

theorem paintPixelNoAA_alpha_mono {w h : ℤ} {fn : ℚ → ℚ → Color} {st : RState}
    {x y : ℤ} (p : ℤ × ℤ) :
    (st.img p).A ≤ ((paintPixelNoAA w h fn st x y).img p).A := by
  simp only [paintPixelNoAA]
  split_ifs <;> first
    | exact le_refl _
    | exact setRGBA_mix_alpha p

theorem paintPixelMSAAdirect_alpha_mono {w h : ℤ} {fn : ℚ → ℚ → Color} {st : RState}
    {x y : ℤ} (p : ℤ × ℤ) :
    (st.img p).A ≤ ((paintPixelMSAAdirect w h fn st x y).img p).A := by
  simp only [paintPixelMSAAdirect]
  split_ifs <;> first
    | exact le_refl _
    | exact setRGBA_mix_alpha p

theorem paintPixelQuad_alpha_mono {w h : ℤ} {fnq : ℚ → ℚ → ℚ → ℚ → Color} {st : RState}
    {x y : ℤ} {tx ty : ℚ} (p : ℤ × ℤ) :
    (st.img p).A ≤ ((paintPixelQuad w h fnq st x y tx ty).img p).A := by
  simp only [paintPixelQuad]
  split_ifs <;> first
    | exact le_refl _
    | exact setRGBA_mix_alpha p

theorem paintPixelCombine_alpha_mono {w h : ℤ} {samples : ℕ} {st : RState}
    {p0 : ℤ × ℤ} {cols : List Color} (p : ℤ × ℤ) :
    (st.img p).A ≤ ((paintPixelCombine w h samples st p0 cols).img p).A := by
  simp only [paintPixelCombine]
  split_ifs <;> first
    | exact le_refl _
    | exact setRGBA_mix_alpha p

theorem opStep_alpha_mono {w h : ℤ} {fn : ℚ → ℚ → Color} {fnq : ℚ → ℚ → ℚ → ℚ → Color}
    {samples : ℕ} {st : RState} {ev : PaintEvent} (p : ℤ × ℤ) :
    (st.img p).A ≤ ((opStep w h fn fnq samples st ev).img p).A := by
  cases ev
  · exact paintPixelNoAA_alpha_mono p
  · exact paintPixelQuad_alpha_mono p
  · exact paintPixelCombine_alpha_mono p

theorem foldl_opStep_alpha_mono {w h : ℤ} {fn : ℚ → ℚ → Color}
    {fnq : ℚ → ℚ → ℚ → ℚ → Color} {samples : ℕ} :
    ∀ (events : List PaintEvent) (st : RState) (p : ℤ × ℤ),
      (st.img p).A ≤ ((events.foldl (opStep w h fn fnq samples) st).img p).A
  | [], _, _ => le_refl _
  | ev :: rest, st, p =>
    le_trans (opStep_alpha_mono p)
      (foldl_opStep_alpha_mono rest (opStep w h fn fnq samples st ev) p)

/-- Claim C9: the compositor never decreases the alpha channel, for every
source and destination color, and consequently the per-pixel alpha of the
framebuffer is monotone non-decreasing across the blended pixel events of
every paint operation. -/
theorem compositor_alpha_monotone :
    (∀ src dest : Color, dest.A ≤ (mix src dest).A) ∧
    (∀ (w h : ℤ) (fn : ℚ → ℚ → Color) (fnq : ℚ → ℚ → ℚ → ℚ → Color) (samples : ℕ)
      (events : List PaintEvent) (st : RState) (p : ℤ × ℤ),
      (st.img p).A ≤ ((runOp w h fn fnq samples events st).img p).A) := by
  refine ⟨mix_alpha_ge, ?_⟩
  intro w h fn fnq samples events st p
  rw [runOp]
  exact foldl_opStep_alpha_mono events ⟨st.img, fun _ => 0, st.clip, fun _ => 0⟩ p

theorem triangleLR_def (t : Tri) (y : ℚ) :
    triangleLR t y = triangleLRsorted (sortTri t).p0 (sortTri t).p1 (sortTri t).p2 y := rfl

theorem triangleLRsorted_le (a b c : ℚ × ℚ) (y : ℚ) :
    (triangleLRsorted a b c y).1 ≤ (triangleLRsorted a b c y).2.1 := by
  simp only [triangleLRsorted]
  split_ifs <;> simp_all <;> linarith

theorem triangleLRsorted_out_eq (a b c : ℚ × ℚ) (y : ℚ)
    (h : (triangleLRsorted a b c y).2.2 = true) :
    (triangleLRsorted a b c y).1 = (triangleLRsorted a b c y).2.1 := by
  simp only [triangleLRsorted] at h ⊢
  split_ifs at h ⊢ <;> simp_all

theorem triangleLRsorted_out_false_elim {a b c : ℚ × ℚ} {y : ℚ}
    (h : (triangleLRsorted a b c y).2.2 = false) : a.2 < y ∧ y ≤ c.2 := by
  simp only [triangleLRsorted] at h
  split_ifs at h with h1 h2 <;>
    first
      | (push_neg at h1 h2; exact ⟨h1, h2⟩)
      | simp at h

theorem triangleLRsorted_out_false {a b c : ℚ × ℚ} {y : ℚ}
    (h1 : a.2 < y) (h2 : y ≤ c.2) : (triangleLRsorted a b c y).2.2 = false := by
  simp only [triangleLRsorted]
  rw [if_neg (not_le.mpr h1), if_neg (not_lt.mpr h2)]
  split_ifs <;> rfl

/-- The sub-sample spacing 1/(msaaLevel+1). -/
def msaaStepQ (N : ℕ) : ℚ := 1 / ((N : ℚ) + 1)

/-- Coordinate of sub-sample number k inside pixel v: the code starts at the
pixel coordinate plus half a step and advances k whole steps. -/
def subSampleQ (v : ℤ) (N k : ℕ) : ℚ :=
  (v : ℚ) + msaaStepQ N / 2 + (k : ℚ) * msaaStepQ N

/-- Per-sub-scanline bounds of fillTriangleMSAA: the triangleLR result with
the left and right bounds clamped to the buffer and the out flag updated
exactly as in the source. -/
def msaaStepLR (w : ℤ) (t : Tri) (sy : ℚ) : ℚ × ℚ × Bool :=
  let res := triangleLR t sy
  let lp : ℚ × Bool :=
    if res.1 < 0 then (0, res.2.2)
    else if res.1 > (w : ℚ) then ((w : ℚ), true)
    else (res.1, res.2.2)
  let rp : ℚ × Bool :=
    if res.2.1 < 0 then (0, true)
    else if res.2.1 > (w : ℚ) then ((w : ℚ), lp.2)
    else (res.2.1, lp.2)
  (lp.1, rp.1, if rp.1 ≤ lp.1 then true else rp.2)

/-- Tail of the per-scanline handling in fillTriangleNoAA after the left bound
has been clamped: skip the row when the right bound is negative or when the
interval is empty, otherwise clamp the right bound to the buffer width. -/
def noAARowTail (w : ℤ) (l r : ℚ) : Option (ℚ × ℚ) :=
  if r < 0 then none
  else
    let r2 := if r > (w : ℚ) then (w : ℚ) else r
    if l ≥ r2 then none else some (l, r2)

/-- Per-scanline handling of fillTriangleNoAA: none when the row is skipped,
otherwise the clamped left and right bounds used by the x loop. -/
def noAARow (w : ℤ) (t : Tri) (yq : ℚ) : Option (ℚ × ℚ) :=
  let res := triangleLR t yq
  if res.2.2 then none
  else if res.1 < 0 then noAARowTail w 0 res.2.1
  else if res.1 > (w : ℚ) then none
  else noAARowTail w res.1 res.2.1

/-- The y loop range shared by fillTriangleNoAA and fillTriangleMSAA: floor
and ceil of the extreme vertex heights, clamped to the buffer. -/
def rowInRange (h : ℤ) (t : Tri) (y : ℤ) : Prop :=
  max (Int.floor (min (min t.p0.2 t.p1.2) t.p2.2)) 0 ≤ y ∧
  y ≤ min (Int.ceil (max (max t.p0.2 t.p1.2) t.p2.2)) (h - 1)

instance (h : ℤ) (t : Tri) (y : ℤ) : Decidable (rowInRange h t y) := by
  unfold rowInRange
  infer_instance

/-- Pixel x is visited by the x loop of fillTriangleNoAA on a row with the
given clamped bounds: it lies in the floor-to-ceil range and its center
passes the half-open interval test. -/
def pxInRow (x : ℤ) : Option (ℚ × ℚ) → Prop
  | none => False
  | some lr => Int.floor lr.1 ≤ x ∧ x ≤ Int.ceil lr.2 ∧
      lr.1 ≤ (x : ℚ) + 1/2 ∧ (x : ℚ) + 1/2 < lr.2

instance (x : ℤ) (o : Option (ℚ × ℚ)) : Decidable (pxInRow x o) := by
  cases o
  · exact isFalse (fun hf => hf)
  · exact inferInstanceAs (Decidable (_ ∧ _ ∧ _ ∧ _))

/-- The per-pixel callback of fillTriangleNoAA is invoked at pixel x y. -/
def noAACovers (w h : ℤ) (t : Tri) (x y : ℤ) : Prop :=
  rowInRange h t y ∧ pxInRow x (noAARow w t ((y : ℚ) + 1/2))

instance (w h : ℤ) (t : Tri) (x y : ℤ) : Decidable (noAACovers w h t x y) := by
  unfold noAACovers
  infer_instance

/-- Every one of the (N+1) by (N+1) sub-samples of pixel x y passes the
clamped in-coverage test of fillTriangleMSAA, so the pixel is painted
directly, with no averaging; the remaining loop-range conditions of the
source are implied by these. -/
def msaaAllInCovers (w h : ℤ) (t : Tri) (N : ℕ) (x y : ℤ) : Prop :=
  rowInRange h t y ∧
  ∀ stepy : ℕ, stepy ≤ N → ∀ stepx : ℕ, stepx ≤ N →
    (msaaStepLR w t (subSampleQ y N stepy)).1 ≤ subSampleQ x N stepx ∧
    subSampleQ x N stepx < (msaaStepLR w t (subSampleQ y N stepy)).2.1

instance (w h : ℤ) (t : Tri) (N : ℕ) (x y : ℤ) : Decidable (msaaAllInCovers w h t N x y) := by
  unfold msaaAllInCovers
  infer_instance

theorem int_le_of_le_add_half {m x : ℤ} (h : (m : ℚ) ≤ (x : ℚ) + 1/2) : m ≤ x := by
  by_contra hc
  push_neg at hc
  have h1 : x + 1 ≤ m := hc
  have h2 : ((x : ℚ) + 1) ≤ (m : ℚ) := by exact_mod_cast h1
  linarith

/-- A sub-sample that passes the clamped window test certifies that the
unclamped triangleLR bounds contain it, that the scanline is not outside, and
that the sample coordinate itself lies inside the buffer width. -/
theorem msaaStepLR_sound {w : ℤ} {t : Tri} {sy sx : ℚ}
    (h1 : (msaaStepLR w t sy).1 ≤ sx) (h2 : sx < (msaaStepLR w t sy).2.1) :
    (triangleLR t sy).2.2 = false ∧
    (triangleLR t sy).1 ≤ sx ∧ sx < (triangleLR t sy).2.1 ∧
    0 ≤ sx ∧ sx < (w : ℚ) := by
  have hle : (triangleLR t sy).1 ≤ (triangleLR t sy).2.1 := by
    rw [triangleLR_def]
    exact triangleLRsorted_le _ _ _ _
  rcases houtc : (triangleLR t sy).2.2 with hft | htt
  · simp only [msaaStepLR] at h1 h2
    constructor
    · rfl
    · split_ifs at h1 h2 <;> (try simp at h1 h2) <;>
        first
          | (exact ⟨by linarith, by linarith, by linarith, by linarith⟩)
          | (exfalso; linarith)
  · exfalso
    have heq : (triangleLR t sy).1 = (triangleLR t sy).2.1 := by
      rw [triangleLR_def] at houtc ⊢
      exact triangleLRsorted_out_eq _ _ _ _ houtc
    simp only [msaaStepLR] at h1 h2
    split_ifs at h1 h2 <;> (try simp at h1 h2) <;> linarith

theorem inTri_convex2 (t : ℚ) {a b c : ℚ × ℚ} {x1 y1 x2 y2 : ℚ}
    (h1 : inTri a b c (x1, y1)) (h2 : inTri a b c (x2, y2))
    (h0 : 0 ≤ t) (hle : t ≤ 1) :
    inTri a b c ((1 - t) * x1 + t * x2, (1 - t) * y1 + t * y2) :=
  @inTri_convex a b c (x1, y1) (x2, y2) t h1 h2 h0 hle

theorem inTri_midpoint {a b c : ℚ × ℚ} {x1 y1 x2 y2 : ℚ}
    (h1 : inTri a b c (x1, y1)) (h2 : inTri a b c (x2, y2)) :
    inTri a b c ((x1 + x2) / 2, (y1 + y2) / 2) := by
  have h := inTri_convex2 (1/2) h1 h2 (by norm_num) (by norm_num)
  have e1 : (1 - (1:ℚ)/2) * x1 + (1/2 : ℚ) * x2 = (x1 + x2) / 2 := by ring
  have e2 : (1 - (1:ℚ)/2) * y1 + (1/2 : ℚ) * y2 = (y1 + y2) / 2 := by ring
  rw [e1, e2] at h
  exact h

theorem noAARowTail_mem {w : ℤ} {l r : ℚ} {x : ℤ}
    (hl0 : 0 ≤ l) (hlx : l ≤ (x : ℚ) + 1/2) (hxr : (x : ℚ) + 1/2 < r)
    (hxw : (x : ℚ) + 1/2 < (w : ℚ)) : pxInRow x (noAARowTail w l r) := by
  have hfl : Int.floor l ≤ x := int_le_of_le_add_half (le_trans (Int.floor_le l) hlx)
  have hnr : ¬ r < 0 := by linarith
  by_cases hrw : r > (w : ℚ)
  · have hv : noAARowTail w l r = some (l, (w : ℚ)) := by
      simp only [noAARowTail]
      rw [if_neg hnr, if_pos hrw]
      rw [if_neg (show ¬ l ≥ (w : ℚ) by push_neg; linarith)]
    rw [hv]
    simp only [pxInRow]
    refine ⟨hfl, ?_, hlx, by linarith⟩
    have hlt : x < Int.ceil (w : ℚ) := Int.lt_ceil.mpr (by linarith)
    omega
  · have hv : noAARowTail w l r = some (l, r) := by
      simp only [noAARowTail]
      rw [if_neg hnr, if_neg hrw]
      rw [if_neg (show ¬ l ≥ r by push_neg; linarith)]
    rw [hv]
    simp only [pxInRow]
    refine ⟨hfl, ?_, hlx, by linarith⟩
    have hlt : x < Int.ceil r := Int.lt_ceil.mpr (by linarith)
    omega

/-- Claim C6: whenever every one of the (N+1) by (N+1) sub-samples of a pixel
passes the in-coverage test of the multi-sample rasterizer, the pixel is also
visited by the non-anti-aliased rasterizer, and the direct paint step that the
multi-sample path performs for such a pixel is the very same per-pixel
function as the one of the non-anti-aliased path, so the pixel receives the
identical blended framebuffer value, with the paint function evaluated once at
the integer pixel coordinates and no averaging. -/
theorem msaa_fullcover_eq_noAA (w h : ℤ) (t : Tri) (N : ℕ) (x y : ℤ)
    (hN1 : 1 ≤ N) (hN4 : N ≤ 4) (hcov : msaaAllInCovers w h t N x y) :
    noAACovers w h t x y ∧
    ∀ (fn : ℚ → ℚ → Color) (st : RState),
      paintPixelMSAAdirect w h fn st x y = paintPixelNoAA w h fn st x y := by
  obtain ⟨hrow, hall⟩ := hcov
  refine ⟨⟨hrow, ?_⟩, fun fn st => rfl⟩
  have hs0 : (0:ℚ) < msaaStepQ N := by
    unfold msaaStepQ
    positivity
  have hs1 : ((N : ℚ) + 1) * msaaStepQ N = 1 := by
    unfold msaaStepQ
    field_simp
  have hshalf : msaaStepQ N ≤ 1/2 := by
    unfold msaaStepQ
    rw [div_le_div_iff (by positivity) (by norm_num)]
    have hN : (1:ℚ) ≤ (N:ℚ) := by exact_mod_cast hN1
    linarith
  have e0x : subSampleQ x N 0 = (x : ℚ) + msaaStepQ N / 2 := by
    unfold subSampleQ
    push_cast
    ring
  have e0y : subSampleQ y N 0 = (y : ℚ) + msaaStepQ N / 2 := by
    unfold subSampleQ
    push_cast
    ring
  have eNx : subSampleQ x N N = (x : ℚ) + 1 - msaaStepQ N / 2 := by
    unfold subSampleQ
    linear_combination hs1
  have eNy : subSampleQ y N N = (y : ℚ) + 1 - msaaStepQ N / 2 := by
    unfold subSampleQ
    linear_combination hs1
  have h00 := hall 0 (Nat.zero_le N) 0 (Nat.zero_le N)
  have h0N := hall 0 (Nat.zero_le N) N (le_refl N)
  have hNN := hall N (le_refl N) N (le_refl N)
  rw [e0x, e0y] at h00
  rw [e0y, eNx] at h0N
  rw [eNx, eNy] at hNN
  have s00 := msaaStepLR_sound h00.1 h00.2
  have s0N := msaaStepLR_sound h0N.1 h0N.2
  have sNN := msaaStepLR_sound hNN.1 hNN.2
  rw [triangleLR_def] at s00 s0N sNN
  obtain ⟨hab, hbc⟩ := sortTri_sorted t
  have hsy1 := triangleLRsorted_out_false_elim s00.1
  have hsy2 := triangleLRsorted_out_false_elim sNN.1
  have hym1 : (sortTri t).p0.2 < (y : ℚ) + 1/2 := by
    have := hsy1.1
    linarith
  have hym2 : (y : ℚ) + 1/2 ≤ (sortTri t).p2.2 := by
    have := hsy2.2
    linarith
  have hend1 := triangleLRsorted_ends_inTri hab hbc hsy1.1 hsy1.2
  have hend2 := triangleLRsorted_ends_inTri hab hbc hsy2.1 hsy2.2
  have hP1 : inTri (sortTri t).p0 (sortTri t).p1 (sortTri t).p2
      ((x : ℚ) + msaaStepQ N / 2, (y : ℚ) + msaaStepQ N / 2) :=
    inTri_segment hend1.1 hend1.2 s00.2.1 (le_of_lt s00.2.2.1)
  have hP2 : inTri (sortTri t).p0 (sortTri t).p1 (sortTri t).p2
      ((x : ℚ) + 1 - msaaStepQ N / 2, (y : ℚ) + 1 - msaaStepQ N / 2) :=
    inTri_segment hend2.1 hend2.2 sNN.2.1 (le_of_lt sNN.2.2.1)
  have hmid := inTri_midpoint hP1 hP2
  have ex : (((x : ℚ) + msaaStepQ N / 2) + ((x : ℚ) + 1 - msaaStepQ N / 2)) / 2 =
      (x : ℚ) + 1/2 := by ring
  have ey : (((y : ℚ) + msaaStepQ N / 2) + ((y : ℚ) + 1 - msaaStepQ N / 2)) / 2 =
      (y : ℚ) + 1/2 := by ring
  rw [ex, ey] at hmid
  have hcross := triangleLRsorted_cross hab hbc hym1 hym2 hmid
  have hQm := inTri_midpoint hend1.2 hend2.2
  rw [ey] at hQm
  have hcrossQ := triangleLRsorted_cross hab hbc hym1 hym2 hQm
  have hrstrict : (x : ℚ) + 1/2 <
      (triangleLRsorted (sortTri t).p0 (sortTri t).p1 (sortTri t).p2 ((y : ℚ) + 1/2)).2.1 := by
    have h1 := s0N.2.2.1
    have h2 := sNN.2.2.1
    have h3 := hcrossQ.2
    linarith
  have hxint : (0 : ℤ) ≤ x := by
    have h1 := s00.2.2.2.1
    by_contra hc
    push_neg at hc
    have h2 : x ≤ -1 := by omega
    have h3 : (x : ℚ) ≤ -1 := by exact_mod_cast h2
    linarith
  have hx0q : (0 : ℚ) ≤ (x : ℚ) := by exact_mod_cast hxint
  have hxwq : (x : ℚ) + 1/2 < (w : ℚ) := by
    have h1 := s0N.2.2.2.2
    linarith
  have houtm : (triangleLRsorted (sortTri t).p0 (sortTri t).p1 (sortTri t).p2
      ((y : ℚ) + 1/2)).2.2 = false := triangleLRsorted_out_false hym1 hym2
  simp only [noAARow, triangleLR_def, houtm]
  rw [if_neg (by simp : ¬ (false = true))]
  by_cases hlm : (triangleLRsorted (sortTri t).p0 (sortTri t).p1 (sortTri t).p2
      ((y : ℚ) + 1/2)).1 < 0
  · rw [if_pos hlm]
    exact noAARowTail_mem (le_refl 0) (by linarith) hrstrict hxwq
  · rw [if_neg hlm]
    push_neg at hlm
    have hnw : ¬ (triangleLRsorted (sortTri t).p0 (sortTri t).p1 (sortTri t).p2
        ((y : ℚ) + 1/2)).1 > (w : ℚ) := by
      push_neg
      have h1 := hcross.1
      linarith
    rw [if_neg hnw]
    exact noAARowTail_mem hlm hcross.1 hrstrict hxwq

/-- Claim C6, witness: for the right triangle with legs of length eight on a
ten by ten buffer, every sub-sample of pixel one one is inside at MSAA level
one, and the non-anti-aliased rasterizer indeed visits that pixel. -/
theorem msaa_fullcover_witness :
    msaaAllInCovers 10 10 ⟨(0, 0), (8, 0), (0, 8)⟩ 1 1 1 ∧
    noAACovers 10 10 ⟨(0, 0), (8, 0), (0, 8)⟩ 1 1 := by
  have hcov : msaaAllInCovers 10 10 ⟨(0, 0), (8, 0), (0, 8)⟩ 1 1 1 := by
    constructor
    · unfold rowInRange
      norm_num
    · intro stepy hsy stepx hsx
      interval_cases stepy <;> interval_cases stepx <;>
        norm_num [subSampleQ, msaaStepQ, msaaStepLR, triangleLR, triangleLRsorted, sortTri]
  exact ⟨hcov, (msaa_fullcover_eq_noAA 10 10 ⟨(0, 0), (8, 0), (0, 8)⟩ 1 1 1 (le_refl 1)
    (by norm_num) hcov).1⟩

theorem noAARowTail_some {w : ℤ} {l r : ℚ} {lr : ℚ × ℚ}
    (h : noAARowTail w l r = some lr) :
    lr.1 = l ∧ lr.2 ≤ (w : ℚ) ∧ lr.1 < lr.2 := by
  simp only [noAARowTail] at h
  by_cases h1 : r < 0
  · rw [if_pos h1] at h
    exact absurd h (by simp)
  · rw [if_neg h1] at h
    by_cases hrw : r > (w : ℚ)
    · rw [if_pos hrw] at h
      by_cases h2 : l ≥ (w : ℚ)
      · rw [if_pos h2] at h
        exact absurd h (by simp)
      · rw [if_neg h2] at h
        have hlr := (Option.some.inj h).symm
        rw [hlr]
        push_neg at h2
        exact ⟨rfl, le_refl _, h2⟩
    · rw [if_neg hrw] at h
      by_cases h2 : l ≥ r
      · rw [if_pos h2] at h
        exact absurd h (by simp)
      · rw [if_neg h2] at h
        have hlr := (Option.some.inj h).symm
        rw [hlr]
        push_neg at h2 hrw
        exact ⟨rfl, hrw, h2⟩

theorem noAARow_bounds {w : ℤ} {t : Tri} {yq : ℚ} {lr : ℚ × ℚ}
    (h : noAARow w t yq = some lr) : 0 ≤ lr.1 ∧ lr.2 ≤ (w : ℚ) ∧ lr.1 < lr.2 := by
  simp only [noAARow] at h
  by_cases hout : (triangleLR t yq).2.2 = true
  · rw [if_pos hout] at h
    exact absurd h (by simp)
  · rw [if_neg hout] at h
    by_cases hl : (triangleLR t yq).1 < 0
    · rw [if_pos hl] at h
      have h2 := noAARowTail_some h
      refine ⟨?_, h2.2.1, h2.2.2⟩
      rw [h2.1]
    · rw [if_neg hl] at h
      by_cases hlw : (triangleLR t yq).1 > (w : ℚ)
      · rw [if_pos hlw] at h
        exact absurd h (by simp)
      · rw [if_neg hlw] at h
        have h2 := noAARowTail_some h
        push_neg at hl
        refine ⟨?_, h2.2.1, h2.2.2⟩
        rw [h2.1]
        exact hl

/-- Every pixel that the non-anti-aliased triangle rasterizer hands to its
per-pixel callback lies inside the w by h framebuffer, for all rational
triangle coordinates, including degenerate triangles and triangles partly or
fully outside the buffer. -/
theorem fillTriangleNoAA_inBounds {w h : ℤ} {t : Tri} {x y : ℤ}
    (hc : noAACovers w h t x y) : 0 ≤ x ∧ x < w ∧ 0 ≤ y ∧ y < h := by
  obtain ⟨⟨hy1, hy2⟩, hpx⟩ := hc
  rcases hrow : noAARow w t ((y : ℚ) + 1/2) with _ | lr
  · rw [hrow] at hpx
    exact hpx.elim
  · rw [hrow] at hpx
    simp only [pxInRow] at hpx
    obtain ⟨hfl, hcl, hlx, hxr⟩ := hpx
    have hb := noAARow_bounds hrow
    have hx0 : 0 ≤ x := by
      by_contra hcn
      push_neg at hcn
      have h1 : x ≤ -1 := by omega
      have h2 : (x : ℚ) ≤ -1 := by exact_mod_cast h1
      have := hb.1
      linarith
    have hxw : x < w := by
      have h1 : (x : ℚ) < (w : ℚ) := by
        have := hb.2.1
        linarith
      exact_mod_cast h1
    refine ⟨hx0, hxw, ?_, ?_⟩
    · have := le_max_right (Int.floor (min (min t.p0.2 t.p1.2) t.p2.2)) (0 : ℤ)
      omega
    · have := min_le_right (Int.ceil (max (max t.p0.2 t.p1.2) t.p2.2)) (h - 1)
      omega

/-- Entry of the deferred multi-sample accumulation list (struct msaaPixel):
integer pixel coordinates, sub-sample coordinates, and the quad parametric
coordinates that the triangle path leaves at zero. -/
structure MsaaPx where
  ix : ℤ
  iy : ℤ
  fx : ℚ
  fy : ℚ
  tx : ℚ
  ty : ℚ
  deriving DecidableEq, Repr

/-- Marking done inside one combine group: every remaining entry of the same
pixel has its ix field set to -1 so that the outer loop skips it later. -/
def markGroup (ix iy : ℤ) (rest : List MsaaPx) : List MsaaPx :=
  rest.map (fun q => if q.ix = ix ∧ q.iy = iy then ⟨-1, q.iy, q.fx, q.fy, q.tx, q.ty⟩ else q)

/-- Channel accumulation of one combine group: walk the remaining entries and
sum the paint colors of the entries belonging to the same pixel. -/
def sumGroup (fn : ℚ → ℚ → Color) (ix iy : ℤ) (l : List MsaaPx) : ℕ × ℕ × ℕ × ℕ :=
  l.foldl
    (fun acc q =>
      if q.ix = ix ∧ q.iy = iy then
        (acc.1 + (fn q.fx q.fy).R, acc.2.1 + (fn q.fx q.fy).G,
         acc.2.2.1 + (fn q.fx q.fy).B, acc.2.2.2 + (fn q.fx q.fy).A)
      else acc)
    (0, 0, 0, 0)

/-- The deferred combine loop at the end of fillTrianglesMSAA: marked or
clipped or already stencilled entries are skipped; otherwise the stencil bit
is set, the colors of the whole group are summed, each channel is divided by
the total sample count, and the result is blended into the image; the group
is then marked. -/
def combineLoop (w h : ℤ) (samples : ℕ) (fn : ℚ → ℚ → Color) :
    List MsaaPx → RState → RState
  | [], st => st
  | px :: rest, st =>
    if px.ix < 0 ∨ alphaAt w h st.clip (px.ix, px.iy) = 0 ∨
        0 < alphaAt w h st.stencil (px.ix, px.iy) then
      combineLoop w h samples fn rest st
    else
      let st1 : RState := ⟨st.img, setAlpha w h st.stencil (px.ix, px.iy) 255, st.clip, st.blends⟩
      let acc := sumGroup fn px.ix px.iy (px :: rest)
      let combined : Color :=
        ⟨acc.1 / samples, acc.2.1 / samples, acc.2.2.1 / samples, acc.2.2.2 / samples⟩
      combineLoop w h samples fn (markGroup px.ix px.iy rest)
        ⟨setRGBA w h st1.img (px.ix, px.iy) (mix combined (rgbaAt w h st1.img (px.ix, px.iy))),
         st1.stencil, st1.clip,
         fun q => if q = (px.ix, px.iy) then st1.blends q + 1 else st1.blends q⟩
termination_by l _ => l.length
decreasing_by
  · simp
  · simp [markGroup]

theorem combineLoop_skip_all {w h : ℤ} {samples : ℕ} {fn : ℚ → ℚ → Color} :
    ∀ (l : List MsaaPx) (st : RState), (∀ q ∈ l, q.ix < 0) →
      combineLoop w h samples fn l st = st
  | [], st, _ => by rw [combineLoop]
  | px :: rest, st, hall => by
    rw [combineLoop, if_pos (Or.inl (hall px (by simp)))]
    exact combineLoop_skip_all rest st (fun q hq => hall q (by simp [hq]))

theorem markGroup_all {ix iy : ℤ} {rest : List MsaaPx}
    (h : ∀ q ∈ rest, q.ix = ix ∧ q.iy = iy) :
    ∀ q ∈ markGroup ix iy rest, q.ix < 0 := by
  intro q hq
  rw [markGroup, List.mem_map] at hq
  obtain ⟨q0, hq0, rfl⟩ := hq
  rw [if_pos (h q0 hq0)]
  norm_num

theorem sumGroup_go {fn : ℚ → ℚ → Color} {ix iy : ℤ} :
    ∀ (l : List MsaaPx) (acc : ℕ × ℕ × ℕ × ℕ), (∀ q ∈ l, q.ix = ix ∧ q.iy = iy) →
      l.foldl
        (fun acc q =>
          if q.ix = ix ∧ q.iy = iy then
            (acc.1 + (fn q.fx q.fy).R, acc.2.1 + (fn q.fx q.fy).G,
             acc.2.2.1 + (fn q.fx q.fy).B, acc.2.2.2 + (fn q.fx q.fy).A)
          else acc)
        acc =
      (acc.1 + (l.map (fun q => (fn q.fx q.fy).R)).sum,
       acc.2.1 + (l.map (fun q => (fn q.fx q.fy).G)).sum,
       acc.2.2.1 + (l.map (fun q => (fn q.fx q.fy).B)).sum,
       acc.2.2.2 + (l.map (fun q => (fn q.fx q.fy).A)).sum)
  | [], acc, _ => by simp
  | q0 :: rest, acc, hall => by
    rw [List.foldl_cons, if_pos (hall q0 (by simp)),
      sumGroup_go rest _ (fun q hq => hall q (by simp [hq]))]
    simp only [List.map_cons, List.sum_cons, Prod.mk.injEq]
    refine ⟨by omega, by omega, by omega, by omega⟩

theorem sumGroup_all {fn : ℚ → ℚ → Color} {ix iy : ℤ} {l : List MsaaPx}
    (h : ∀ q ∈ l, q.ix = ix ∧ q.iy = iy) :
    sumGroup fn ix iy l =
      ((l.map (fun q => (fn q.fx q.fy).R)).sum, (l.map (fun q => (fn q.fx q.fy).G)).sum,
       (l.map (fun q => (fn q.fx q.fy).B)).sum, (l.map (fun q => (fn q.fx q.fy).A)).sum) := by
  rw [sumGroup, sumGroup_go l (0, 0, 0, 0) h]
  simp

/-- Color blended for one whole group of in-coverage sub-samples: each channel
is the sum over the group divided by the total sample count, with integer
division. -/
def sumDivColor (fn : ℚ → ℚ → Color) (l : List MsaaPx) (samples : ℕ) : Color :=
  ⟨(l.map (fun q => (fn q.fx q.fy).R)).sum / samples,
   (l.map (fun q => (fn q.fx q.fy).G)).sum / samples,
   (l.map (fun q => (fn q.fx q.fy).B)).sum / samples,
   (l.map (fun q => (fn q.fx q.fy).A)).sum / samples⟩

/-- Modelled from the spec wording of claim C5: the unweighted mean of the
in-coverage sub-sample colors, dividing each channel sum by the number of
in-coverage sub-samples. -/
def unweightedMeanColor (fn : ℚ → ℚ → Color) (l : List MsaaPx) : Color :=
  ⟨(l.map (fun q => (fn q.fx q.fy).R)).sum / l.length,
   (l.map (fun q => (fn q.fx q.fy).G)).sum / l.length,
   (l.map (fun q => (fn q.fx q.fy).B)).sum / l.length,
   (l.map (fun q => (fn q.fx q.fy).A)).sum / l.length⟩

theorem combineLoop_group {w h : ℤ} {samples : ℕ} {fn : ℚ → ℚ → Color}
    {px : MsaaPx} {pxs : List MsaaPx} {st : RState}
    (hgroup : ∀ q ∈ px :: pxs, q.ix = px.ix ∧ q.iy = px.iy)
    (hskip : ¬(px.ix < 0 ∨ alphaAt w h st.clip (px.ix, px.iy) = 0 ∨
      0 < alphaAt w h st.stencil (px.ix, px.iy))) :
    (combineLoop w h samples fn (px :: pxs) st).img =
      setRGBA w h st.img (px.ix, px.iy)
        (mix (sumDivColor fn (px :: pxs) samples) (rgbaAt w h st.img (px.ix, px.iy))) := by
  rw [combineLoop, if_neg hskip]
  rw [combineLoop_skip_all _ _ (markGroup_all (fun q hq => hgroup q (by simp [hq])))]
  simp only []
  rw [sumGroup_all hgroup]
  rfl

/-- Claim C5 (amended): the source color that the multi-sample fill path
blends for one combine group is the per-channel sum of the in-coverage
sub-sample colors divided, with integer division, by the total sample count
passed to the loop, which the caller sets to (N+1) squared; when fewer than
all sub-samples are in coverage this is not the unweighted mean of the
in-coverage colors. -/
theorem msaaCombine_divides_by_total {w h : ℤ} {samples : ℕ} {fn : ℚ → ℚ → Color}
    {px : MsaaPx} {pxs : List MsaaPx} {st : RState}
    (hgroup : ∀ q ∈ px :: pxs, q.ix = px.ix ∧ q.iy = px.iy)
    (hskip : ¬(px.ix < 0 ∨ alphaAt w h st.clip (px.ix, px.iy) = 0 ∨
      0 < alphaAt w h st.stencil (px.ix, px.iy))) :
    (combineLoop w h samples fn (px :: pxs) st).img =
      setRGBA w h st.img (px.ix, px.iy)
        (mix (sumDivColor fn (px :: pxs) samples) (rgbaAt w h st.img (px.ix, px.iy))) :=
  combineLoop_group hgroup hskip

/-- A single accumulated sub-sample at pixel zero zero. -/
def msaaPx0 : MsaaPx := ⟨0, 0, 0, 0, 0, 0⟩

/-- A one by one state with a transparent framebuffer, clear stencil and a
fully open clip mask. -/
def rStateW : RState := ⟨fun _ => ⟨0, 0, 0, 0⟩, fun _ => 0, fun _ => 255, fun _ => 0⟩

/-- A constant paint function. -/
def fnRedW : ℚ → ℚ → Color := fun _ _ => ⟨252, 0, 0, 252⟩

theorem msaaCombine_group_simple :
    ∀ q ∈ [msaaPx0], q.ix = msaaPx0.ix ∧ q.iy = msaaPx0.iy := by
  intro q hq
  simp only [List.mem_singleton] at hq
  subst hq
  exact ⟨rfl, rfl⟩

theorem msaaCombine_skip_simple :
    ¬(msaaPx0.ix < 0 ∨ alphaAt 1 1 rStateW.clip (msaaPx0.ix, msaaPx0.iy) = 0 ∨
      0 < alphaAt 1 1 rStateW.stencil (msaaPx0.ix, msaaPx0.iy)) := by
  simp only [msaaPx0, rStateW, alphaAt, inBoundsP]
  norm_num

/-- Claim C5, witness: the combine loop run on a one-entry group with sample
count four blends exactly the summed color divided by four. -/
theorem msaaCombine_divides_witness :
    (∀ q ∈ [msaaPx0], q.ix = msaaPx0.ix ∧ q.iy = msaaPx0.iy) ∧
    (combineLoop 1 1 4 fnRedW [msaaPx0] rStateW).img =
      setRGBA 1 1 rStateW.img (msaaPx0.ix, msaaPx0.iy)
        (mix (sumDivColor fnRedW [msaaPx0] 4)
          (rgbaAt 1 1 rStateW.img (msaaPx0.ix, msaaPx0.iy))) :=
  ⟨msaaCombine_group_simple,
   msaaCombine_divides_by_total msaaCombine_group_simple msaaCombine_skip_simple⟩

/-- Claim C5, counterexample: a partially covered pixel with one in-coverage
sub-sample of color (252,0,0,252) at MSAA level one is blended with source
color (63,0,0,63), the sum divided by the total sample count four, which is
not the unweighted mean (252,0,0,252) of the in-coverage sub-sample colors
that the spec asserts it equals. -/
theorem msaaCombine_not_mean_cex :
    (combineLoop 1 1 4 fnRedW [msaaPx0] rStateW).img =
      setRGBA 1 1 rStateW.img (0, 0) (mix ⟨63, 0, 0, 63⟩ ⟨0, 0, 0, 0⟩) ∧
    sumDivColor fnRedW [msaaPx0] 4 = ⟨63, 0, 0, 63⟩ ∧
    unweightedMeanColor fnRedW [msaaPx0] = ⟨252, 0, 0, 252⟩ ∧
    (⟨63, 0, 0, 63⟩ : Color) ≠ ⟨252, 0, 0, 252⟩ := by
  have hsum : sumDivColor fnRedW [msaaPx0] 4 = ⟨63, 0, 0, 63⟩ := by
    simp [sumDivColor, fnRedW, msaaPx0]
  have hmean : unweightedMeanColor fnRedW [msaaPx0] = ⟨252, 0, 0, 252⟩ := by
    simp [unweightedMeanColor, fnRedW, msaaPx0]
  have hr : rgbaAt 1 1 rStateW.img (msaaPx0.ix, msaaPx0.iy) = ⟨0, 0, 0, 0⟩ := by
    unfold rgbaAt rStateW
    split_ifs <;> rfl
  refine ⟨?_, hsum, hmean, by simp⟩
  rw [combineLoop_group msaaCombine_group_simple msaaCombine_skip_simple, hsum, hr]
  rfl

/-- Integers from lo to hi inclusive, the range of a Go for loop from lo while
at most hi. -/
def intRange (lo hi : ℤ) : List ℤ :=
  (List.range (hi + 1 - lo).toNat).map (fun n => lo + n)

/-- The x values that the x loop of fillTriangleNoAA visits on row y and
passes to the callback. -/
def triangleRowPixels (w : ℤ) (t : Tri) (y : ℤ) : List ℤ :=
  match noAARow w t ((y : ℚ) + 1/2) with
  | none => []
  | some lr =>
    (intRange (Int.floor lr.1) (Int.ceil lr.2)).filter
      (fun x => decide (lr.1 ≤ (x : ℚ) + 1/2) && decide ((x : ℚ) + 1/2 < lr.2))

/-- All pixels that fillTriangleNoAA passes to its callback for one triangle,
rows in increasing order. -/
def fillTriangleNoAAPixels (w h : ℤ) (t : Tri) : List (ℤ × ℤ) :=
  (intRange (max (Int.floor (min (min t.p0.2 t.p1.2) t.p2.2)) 0)
      (min (Int.ceil (max (max t.p0.2 t.p1.2) t.p2.2)) (h - 1))).flatMap
    (fun y => (triangleRowPixels w t y).map (fun x => (x, y)))

/-- Function iterateTriangles: a list of exactly four points is split into the
two triangles sharing the diagonal from point zero to point two, otherwise the
points are taken in consecutive groups of three with any remainder dropped. -/
def triGroups : List (ℚ × ℚ) → List Tri
  | p0 :: p1 :: p2 :: rest => ⟨p0, p1, p2⟩ :: triGroups rest
  | _ => []

def iterateTriangles (pts : List (ℚ × ℚ)) : List Tri :=
  match pts with
  | [p0, p1, p2, p3] => [⟨p0, p1, p2⟩, ⟨p0, p2, p3⟩]
  | _ => triGroups pts

/-- Stencil contents after Clip cleared the stencil and rasterized the given
geometry into it with fillTriangleNoAA, setting alpha 255 at every visited
pixel. -/
def clipRasterStencil (w h : ℤ) (pts : List (ℚ × ℚ)) : ℤ × ℤ → ℕ :=
  ((iterateTriangles pts).flatMap (fillTriangleNoAAPixels w h)).foldl
    (fun m p => setAlpha w h m p 255) (fun _ => 0)

/-- Function Clip of the software backend: rasterize the geometry into the
cleared stencil, then zero every in-bounds clip entry whose stencil entry is
zero, leaving the other clip entries untouched. -/
def ClipOp (w h : ℤ) (pts : List (ℚ × ℚ)) (clip : ℤ × ℤ → ℕ) : ℤ × ℤ → ℕ :=
  fun p => if inBoundsP w h p ∧ clipRasterStencil w h pts p = 0 then 0 else clip p

/-- Claim C8: clipping to geometry A and then geometry B produces the same
clip mask as clipping to B and then A, and on every in-bounds pixel both
orders equal the pixelwise intersection: the prior mask value survives exactly
when both rasterized shapes cover the pixel, and is zeroed otherwise. -/
theorem Clip_comm_intersect (w h : ℤ) (A B : List (ℚ × ℚ)) (c : ℤ × ℤ → ℕ) :
    (∀ p, ClipOp w h A (ClipOp w h B c) p = ClipOp w h B (ClipOp w h A c) p) ∧
    (∀ p, inBoundsP w h p →
      ClipOp w h A (ClipOp w h B c) p =
        if clipRasterStencil w h A p ≠ 0 ∧ clipRasterStencil w h B p ≠ 0 then c p else 0) := by
  constructor <;> intro p
  · unfold ClipOp
    split_ifs <;> rfl
  · intro hin
    unfold ClipOp
    split_ifs <;> tauto

/-- Claim C8, witness: instantiated on a four by four buffer with two concrete
triangles and an arbitrary prior mask value at pixel one one. -/
theorem Clip_comm_intersect_witness :
    inBoundsP 4 4 (1, 1) ∧
    (ClipOp 4 4 [(0, 0), (4, 0), (0, 4)]
        (ClipOp 4 4 [(0, 0), (4, 0), (4, 4)] (fun _ => 200)) (1, 1) =
      if clipRasterStencil 4 4 [(0, 0), (4, 0), (0, 4)] (1, 1) ≠ 0 ∧
          clipRasterStencil 4 4 [(0, 0), (4, 0), (4, 4)] (1, 1) ≠ 0 then 200 else 0) :=
  ⟨by decide,
   (Clip_comm_intersect 4 4 [(0, 0), (4, 0), (0, 4)] [(0, 0), (4, 0), (4, 4)]
     (fun _ => 200)).2 (1, 1) (by decide)⟩

/-- Go image.Rectangle: corner coordinates, minimum first when canonical. -/
structure GoRect where
  x0 : ℤ
  y0 : ℤ
  x1 : ℤ
  y1 : ℤ
  deriving DecidableEq, Repr

/-- Go image.Rect: swap the coordinates on each axis so that the minimum comes
first. -/
def mkRect (x0 y0 x1 y1 : ℤ) : GoRect :=
  let xs := if x0 > x1 then (x1, x0) else (x0, x1)
  let ys := if y0 > y1 then (y1, y0) else (y0, y1)
  ⟨xs.1, ys.1, xs.2, ys.2⟩

/-- Point membership in a Go rectangle, half open on the maximum side. -/
def GoRect.memP (r : GoRect) (p : ℤ × ℤ) : Prop :=
  r.x0 ≤ p.1 ∧ p.1 < r.x1 ∧ r.y0 ≤ p.2 ∧ p.2 < r.y1

instance (r : GoRect) (p : ℤ × ℤ) : Decidable (GoRect.memP r p) := by
  unfold GoRect.memP
  infer_instance

/-- Go Rectangle.Intersect: componentwise maximum of the minima and minimum of
the maxima, collapsing to the zero rectangle when empty. -/
def GoRect.inter (r s : GoRect) : GoRect :=
  let t : GoRect := ⟨max r.x0 s.x0, max r.y0 s.y0, min r.x1 s.x1, min r.y1 s.y1⟩
  if t.x1 ≤ t.x0 ∨ t.y1 ≤ t.y0 then ⟨0, 0, 0, 0⟩ else t

/-- Go Rectangle.Add: translation by a point. -/
def GoRect.addP (r : GoRect) (dx dy : ℤ) : GoRect :=
  ⟨r.x0 + dx, r.y0 + dy, r.x1 + dx, r.y1 + dy⟩

/-- Go image.RGBA viewed through its observable behavior: a bounds rectangle
and the shared pixel storage; sub-images share the storage of their parent. -/
structure GoRGBA where
  rect : GoRect
  pix : ℤ × ℤ → Color

/-- Go image.RGBA.At: the zero color outside the bounds. -/
def GoRGBA.At (img : GoRGBA) (x y : ℤ) : Color :=
  if GoRect.memP img.rect (x, y) then img.pix (x, y) else ⟨0, 0, 0, 0⟩

def GoRGBA.Dx (img : GoRGBA) : ℤ := img.rect.x1 - img.rect.x0

def GoRGBA.Dy (img : GoRGBA) : ℤ := img.rect.y1 - img.rect.y0

/-- Go image.RGBA.SubImage: the bounds are intersected with the requested
rectangle and the pixel storage is shared. -/
def GoRGBA.SubImage (img : GoRGBA) (r : GoRect) : GoRGBA :=
  ⟨GoRect.inter r img.rect, img.pix⟩

/-- Go draw.Draw with the Src operator: the requested rectangle is clipped
against the destination bounds and against the source bounds translated by the
difference between the original rectangle minimum and the source point; every
point of the clipped rectangle receives the source pixel at the source point
plus its offset from the original rectangle minimum. -/
def drawSrc (dst : GoRGBA) (r : GoRect) (src : GoRGBA) (spx spy : ℤ) : GoRGBA :=
  let origx := r.x0
  let origy := r.y0
  let rr := GoRect.inter (GoRect.inter r dst.rect)
    (GoRect.addP src.rect (origx - spx) (origy - spy))
  ⟨dst.rect, fun p =>
    if GoRect.memP rr p then src.At (p.1 - origx + spx) (p.2 - origy + spy) else dst.pix p⟩

/-- GetImageData of the software backend: it passes its x, y, w, h arguments
straight to image.Rect, which treats them as the two corner coordinates. -/
def GetImageData (img : GoRGBA) (x y w h : ℤ) : GoRGBA :=
  GoRGBA.SubImage img (mkRect x y w h)

/-- PutImageData of the software backend: it draws the given image with the
Src operator into image.Rect(x, y, Dx, Dy), again treated as corner
coordinates, with the zero source point. -/
def PutImageData (dst : GoRGBA) (img : GoRGBA) (x y : ℤ) : GoRGBA :=
  drawSrc dst (mkRect x y (GoRGBA.Dx img) (GoRGBA.Dy img)) img 0 0

/-- An eight by eight framebuffer whose pixel one one differs from all the
others. -/
def imgW : GoRGBA :=
  ⟨mkRect 0 0 8 8, fun p => if p = (1, 1) then ⟨10, 20, 30, 255⟩ else ⟨40, 50, 60, 255⟩⟩

/-- Claim C4: writing the image returned by GetImageData back at the origin of
the same rectangle does not leave the framebuffer unchanged: with the
rectangle given as x 1, y 1, w 4, h 4, the round trip copies the pixel at one
one onto the pixel at two two, because both functions pass their width and
height arguments to image.Rect as corner coordinates. -/
theorem putGet_changes_pixel :
    (PutImageData imgW (GetImageData imgW 1 1 4 4) 1 1).At 2 2 = ⟨10, 20, 30, 255⟩ ∧
    imgW.At 2 2 = ⟨40, 50, 60, 255⟩ ∧
    (PutImageData imgW (GetImageData imgW 1 1 4 4) 1 1).At 2 2 ≠ imgW.At 2 2 := by
  refine ⟨by decide, by decide, by decide⟩

/-- An RGBA image for the blur passes: width, height and pixel contents. -/
structure Img where
  w : ℕ
  h : ℕ
  pix : ℤ × ℤ → Color

/-- Go image.RGBA.RGBAAt on a NewRGBA-backed image with origin zero: the zero
color outside the bounds. -/
def Img.RGBAAt (img : Img) (x y : ℤ) : Color :=
  if 0 ≤ x ∧ x < (img.w : ℤ) ∧ 0 ≤ y ∧ y < (img.h : ℤ) then img.pix (x, y) else ⟨0, 0, 0, 0⟩

/-- Write a single pixel of a pixel map. -/
def setPix (p : ℤ × ℤ) (c : Color) (f : ℤ × ℤ → Color) : ℤ × ℤ → Color :=
  fun q => if q = p then c else f q

/-- Add the channels of a color to the four running channel sums of a box
pass. -/
def accAdd (acc : ℚ × ℚ × ℚ × ℚ) (c : Color) : ℚ × ℚ × ℚ × ℚ :=
  (acc.1 + c.R, acc.2.1 + c.G, acc.2.2.1 + c.B, acc.2.2.2 + c.A)

/-- Subtract the channels of a color from the four running channel sums of a
box pass. -/
def accSub (acc : ℚ × ℚ × ℚ × ℚ) (c : Color) : ℚ × ℚ × ℚ × ℚ :=
  (acc.1 - c.R, acc.2.1 - c.G, acc.2.2.1 - c.B, acc.2.2.2 - c.A)

/-- The rounded output color of a box pass window: each channel sum times
one over the sample count, rounded half away from zero. -/
def roundCol (acc : ℚ × ℚ × ℚ × ℚ) (samples : ℤ) : Color :=
  let factor : ℚ := 1 / (samples : ℚ)
  ⟨(goRound (acc.1 * factor)).toNat, (goRound (acc.2.1 * factor)).toNat,
   (goRound (acc.2.2.1 * factor)).toNat, (goRound (acc.2.2.2 * factor)).toNat⟩

/-- The inner sliding-window loop of box3x on row y: write the rounded window
average at x, stop at the last column, otherwise drop the pixel leaving the
window on the left, advance, and add the pixel entering on the right. The
fuel bounds the iteration count; box3x supplies enough for the loop to reach
its break. -/
def box3xLoop (img : Img) (size : ℤ) (y : ℤ) :
    ℕ → ℤ → (ℚ × ℚ × ℚ × ℚ) → ℤ → (ℤ × ℤ → Color) → (ℤ × ℤ → Color)
  | 0, _, _, _, res => res
  | Nat.succ fuel, x, acc, samples, res =>
    let res1 := setPix (x, y) (roundCol acc samples) res
    if x ≥ (img.w : ℤ) - 1 then res1
    else
      let st1 := if x - size ≥ 0 then (accSub acc (img.RGBAAt (x - size) y), samples - 1)
        else (acc, samples)
      let x2 := x + 1
      let st2 := if x2 + size < (img.w : ℤ) then (accAdd st1.1 (img.RGBAAt (x2 + size) y), st1.2 + 1)
        else st1
      box3xLoop img size y fuel x2 st2.1 st2.2 res1

/-- The inner sliding-window loop of box3y on column x, symmetric to
box3xLoop. -/
def box3yLoop (img : Img) (size : ℤ) (x : ℤ) :
    ℕ → ℤ → (ℚ × ℚ × ℚ × ℚ) → ℤ → (ℤ × ℤ → Color) → (ℤ × ℤ → Color)
  | 0, _, _, _, res => res
  | Nat.succ fuel, y, acc, samples, res =>
    let res1 := setPix (x, y) (roundCol acc samples) res
    if y ≥ (img.h : ℤ) - 1 then res1
    else
      let st1 := if y - size ≥ 0 then (accSub acc (img.RGBAAt x (y - size)), samples - 1)
        else (acc, samples)
      let y2 := y + 1
      let st2 := if y2 + size < (img.h : ℤ) then (accAdd st1.1 (img.RGBAAt x (y2 + size)), st1.2 + 1)
        else st1
      box3yLoop img size x fuel y2 st2.1 st2.2 res1

/-- One horizontal box pass: for each row, if the radius covers the whole
width the row is replaced by its average, otherwise the window holding
columns zero through size starts the sliding loop with samples size plus
one. The result starts from a fresh zero image, as image.NewRGBA does. -/
def box3x (img : Img) (size : ℤ) : Img :=
  ⟨img.w, img.h,
    (intRange 0 ((img.h : ℤ) - 1)).foldl (fun res y =>
      if size ≥ (img.w : ℤ) then
        let acc := (intRange 0 ((img.w : ℤ) - 1)).foldl
          (fun a x => accAdd a (img.RGBAAt x y)) (0, 0, 0, 0)
        let col := roundCol acc (img.w : ℤ)
        (intRange 0 ((img.w : ℤ) - 1)).foldl (fun r x => setPix (x, y) col r) res
      else
        let acc0 := (intRange 0 size).foldl (fun a x => accAdd a (img.RGBAAt x y)) (0, 0, 0, 0)
        box3xLoop img size y (img.w + 1) 0 acc0 (size + 1) res)
      (fun _ => ⟨0, 0, 0, 0⟩)⟩

/-- One vertical box pass, symmetric to box3x. -/
def box3y (img : Img) (size : ℤ) : Img :=
  ⟨img.w, img.h,
    (intRange 0 ((img.w : ℤ) - 1)).foldl (fun res x =>
      if size ≥ (img.h : ℤ) then
        let acc := (intRange 0 ((img.h : ℤ) - 1)).foldl
          (fun a y => accAdd a (img.RGBAAt x y)) (0, 0, 0, 0)
        let col := roundCol acc (img.h : ℤ)
        (intRange 0 ((img.h : ℤ) - 1)).foldl (fun r y => setPix (x, y) col r) res
      else
        let acc0 := (intRange 0 size).foldl (fun a y => accAdd a (img.RGBAAt x y)) (0, 0, 0, 0)
        box3yLoop img size x (img.h + 1) 0 acc0 (size + 1) res)
      (fun _ => ⟨0, 0, 0, 0⟩)⟩

/-- The blur entry point box3: the size is first rescaled by the factor
1 minus 1 over size plus 1, then split into three integer radii with
thresholds 0.333333333 and 0.666666666 on the fractional part, and three
horizontal passes are followed by three vertical passes. -/
def box3 (img : Img) (size : ℚ) : Img :=
  let size2 := size * (1 - 1 / (size + 1))
  let fsize : ℤ := Int.floor size2
  let sizea := fsize
  let sizeb := if size2 - (fsize : ℚ) > 333333333 / 1000000000 then sizea + 1 else sizea
  let sizec := if size2 - (fsize : ℚ) > 666666666 / 1000000000 then sizea + 1 else sizea
  box3y (box3y (box3y (box3x (box3x (box3x img sizea) sizeb) sizec) sizea) sizeb) sizec

/-- The three pass radii that box3 derives from the blur size, written as a
closed function of the size. -/
def box3Radii (size : ℚ) : ℤ × ℤ × ℤ :=
  let size2 := size * (1 - 1 / (size + 1))
  let fsize : ℤ := Int.floor size2
  (fsize,
   if size2 - (fsize : ℚ) > 333333333 / 1000000000 then fsize + 1 else fsize,
   if size2 - (fsize : ℚ) > 666666666 / 1000000000 then fsize + 1 else fsize)

/-- Modelled from the spec and claim C7 wording: the radii would be the floor
of the blur size itself, with the plus one for the second and third passes
when the fractional remainder of the size exceeds one third and two thirds. -/
def claimedRadii (size : ℚ) : ℤ × ℤ × ℤ :=
  let fsize : ℤ := Int.floor size
  (fsize,
   if size - (fsize : ℚ) > 1 / 3 then fsize + 1 else fsize,
   if size - (fsize : ℚ) > 2 / 3 then fsize + 1 else fsize)

/-- The blur is the six-pass composition with the radii of box3Radii. -/
theorem box3_radii_eq (img : Img) (size : ℚ) :
    box3 img size =
      box3y (box3y (box3y (box3x (box3x (box3x img (box3Radii size).1)
        (box3Radii size).2.1) (box3Radii size).2.2) (box3Radii size).1)
        (box3Radii size).2.1) (box3Radii size).2.2 := rfl

/-- Claim C7 counterexample: at blur size two the code first rescales the
size to four thirds, so the three pass radii are one, two and one, while the
claim derives them from the size itself and says two, two and two; the blur
at size two is the six-pass composition with radii one, two, one per axis. -/
theorem box3_radii_cex :
    box3Radii 2 = (1, 2, 1) ∧ claimedRadii 2 = (2, 2, 2) ∧
    box3Radii 2 ≠ claimedRadii 2 ∧
    ∀ img : Img, box3 img 2 =
      box3y (box3y (box3y (box3x (box3x (box3x img 1) 2) 1) 1) 2) 1 := by
  have h1 : box3Radii 2 = (1, 2, 1) := by
    unfold box3Radii
    norm_num
  have h2 : claimedRadii 2 = (2, 2, 2) := by
    unfold claimedRadii
    norm_num
  refine ⟨h1, h2, by rw [h1, h2]; simp, ?_⟩
  intro img
  rw [box3_radii_eq img 2, h1]

/-- Claim C7 (amended): for every image and blur size, the blur is three
horizontal box passes followed by three vertical box passes, and the radii
come from the rescaled size, the size times one minus one over size plus
one: its floor for the first pass, the floor plus one for the second pass
when the fractional part exceeds 0.333333333, and the floor plus one for the
third pass when the fractional part exceeds 0.666666666. -/
theorem box3_three_passes (img : Img) (size : ℚ) :
    box3 img size =
      box3y (box3y (box3y (box3x (box3x (box3x img (box3Radii size).1)
        (box3Radii size).2.1) (box3Radii size).2.2) (box3Radii size).1)
        (box3Radii size).2.1) (box3Radii size).2.2 ∧
    (box3Radii size).1 = Int.floor (size * (1 - 1 / (size + 1))) ∧
    (box3Radii size).2.1 =
      (if size * (1 - 1 / (size + 1)) - (Int.floor (size * (1 - 1 / (size + 1))) : ℚ) >
          333333333 / 1000000000
        then Int.floor (size * (1 - 1 / (size + 1))) + 1
        else Int.floor (size * (1 - 1 / (size + 1)))) ∧
    (box3Radii size).2.2 =
      (if size * (1 - 1 / (size + 1)) - (Int.floor (size * (1 - 1 / (size + 1))) : ℚ) >
          666666666 / 1000000000
        then Int.floor (size * (1 - 1 / (size + 1))) + 1
        else Int.floor (size * (1 - 1 / (size + 1)))) := by
  exact ⟨rfl, rfl, rfl, rfl⟩

end Canvas
